import Mathlib

/-!
Verification development for the `optimizedHttpClient` repository.

The repository contains several draft variants of one TypeScript class
`OptimizedHttpClient`:

* `src/src/httpClient.ts` — the "counter variant": a hand-rolled per-host
  counter (`hostCounters`) plus a hand-rolled FIFO buffer (`hostQueue`);
  the dedup map `inFlightRequests` stores the raw `fetch` promise and the
  dedup entry is created only when the transport call starts.
* `src/unnamed/part_001` — three "async.queue variants": the per-host
  admission queue is an `async.queue` with concurrency
  `MAX_CONCURRENT_REQUESTS`; the dedup entry (an inner promise) is created
  at submission time, and the worker parses the response body
  (`response.json()`) before resolving.  The third of these (the
  "singleton variant") additionally stamps an `x-callstart` header in the
  worker before calling the transport.

Both families are embedded below as explicit state machines whose atomic
steps are the synchronous (run-to-completion) segments of the JavaScript
event loop: an external call to `fetchWithOptimization` up to its first
suspension, the start of a queued task, and the completion continuation of
a transport call (the `try/catch/finally` of the worker).  The transport
(`fetch`) and the response-body decoder are external collaborators; their
outcomes are supplied by the environment as event parameters.
-/

/-- Update one key of a total function; models one `Map.set` on the mutable
maps (`hostCounters`, `hostQueue`, promise stores) of the client. -/
def upd {α β : Type} [DecidableEq α] (f : α → β) (k : α) (v : β) : α → β :=
  fun q => if q = k then v else f q

@[simp] theorem upd_same {α β : Type} [DecidableEq α] (f : α → β) (k : α) (v : β) :
    upd f k v k = v := by
  simp [upd]

/-- Raw transport response, as exposed by `node-fetch` / WHATWG `fetch`:
a numeric status and a body.  `jsonBody = some s` means `response.json()`
succeeds and yields the parsed value `s`; `jsonBody = none` means the body
is not decodable (`response.json()` rejects). -/
structure RawResponse where
  status : Nat
  jsonBody : Option String
  deriving DecidableEq, Repr

/-- The WHATWG `response.ok` getter: status in the inclusive range 200–299. -/
def RawResponse.ok (r : RawResponse) : Bool :=
  200 ≤ r.status && r.status ≤ 299

/-- Outcome of the external `fetch` collaborator for one transport call:
either a response arrived or the network call itself failed (connection
refused, DNS failure, ...). -/
inductive TransportOutcome where
  | response (r : RawResponse)
  | netError (msg : String)
  deriving DecidableEq, Repr

/-- Errors a call can settle with.  The source throws plain `Error` objects;
`httpStatus s` models `new Error ("HTTP Error: " ++ toString s)` (the status
is carried in the message), `transport m` models the propagated rejection of
`fetch`, `decode` models the rejection of `response.json()`, and
`invalidUrl u` models the exception thrown when `new URL(u)` fails
(`src/src/httpClient.ts` wraps it as `new Error ("Invalid URL: " ++ u)`;
the async.queue variants let the `TypeError` propagate). -/
inductive JsError where
  | httpStatus (status : Nat)
  | transport (msg : String)
  | decode
  | invalidUrl (url : String)
  deriving DecidableEq, Repr

/-- Value a call can settle successfully with: the counter variant resolves
with the raw `Response` object, the async.queue variants resolve with the
parsed JSON body. -/
inductive SettledValue where
  | rawResponse (r : RawResponse)
  | parsed (s : String)
  deriving DecidableEq, Repr

/-- Per-host concurrency limit; the field `MAX_CONCURRENT_REQUESTS = 3` of
every variant of the class. -/
def MAX_CONCURRENT_REQUESTS : Nat := 3

/-! ### Headers and request options

Only what the claims need from `RequestInit`: the `body` field (which the
async.queue variants normalize from `null` to `undefined`), the `headers`
object (which the singleton variant overwrites), and an opaque `rest`
standing for every other property of the caller's options object. -/

/-- A JavaScript `body` value, distinguishing `undefined` from `null` from an
actual value, as the source does with `options.body === null`. -/
inductive JsBody where
  | undef
  | null
  | value (s : String)
  deriving DecidableEq, Repr

/-- A JavaScript headers object: association list of header names to values,
keys unique in well-formed objects. -/
abbrev HeaderObj : Type := List (String × String)

/-- Property lookup on a headers object. -/
def hGet (h : HeaderObj) (k : String) : Option String :=
  (List.find? (fun p => p.1 = k) h).map (fun p => p.2)

/-- The JavaScript object-spread update `\x7b ...h, k: v \x7d`: if `k` is
already a key its value is replaced in place, otherwise `(k, v)` is appended.
Models `\x7b ...headers, 'x-callstart': ts \x7d` in the singleton variant. -/
def objSet (h : HeaderObj) (k v : String) : HeaderObj :=
  if h.any (fun p => p.1 = k) then
    h.map (fun p => if p.1 = k then (k, v) else p)
  else
    h ++ [(k, v)]

/-- The modelled fields of the caller's `RequestInit` options object. -/
structure RequestOptions where
  body : JsBody
  headers : HeaderObj
  rest : String
  deriving DecidableEq, Repr

/-- The body normalization at the top of `fetchWithOptimization` in the
async.queue variants (src/unnamed/part_001 lines 49–51, 151–153, 289–291):
`if (options.body === null) options.body = undefined;`. -/
def normalizeBody (o : RequestOptions) : RequestOptions :=
  if o.body = JsBody.null then { o with body := JsBody.undef } else o

/-! ### URL model

`getHostKey` in every variant is `new URL(url).host` (with the counter
variant additionally wrapping the parse failure).  `new URL` is a platform
collaborator; the fragment of the WHATWG URL parser relevant to the claims
is modelled here: a `scheme://host[:port]` prefix, with scheme and host
lowercased, the port required to be decimal digits at most 65535, leading
zeros of the port dropped, and the port elided from `.host` when it equals
the scheme's default port.  Userinfo and IPv6 bracket syntax are not
modelled (no claim exercises them). -/

/-- Lowercase an ASCII letter, as WHATWG URL parsing does to the scheme and
the host. -/
def lcChar : Char → Char
  | 'A' => 'a'
  | 'B' => 'b'
  | 'C' => 'c'
  | 'D' => 'd'
  | 'E' => 'e'
  | 'F' => 'f'
  | 'G' => 'g'
  | 'H' => 'h'
  | 'I' => 'i'
  | 'J' => 'j'
  | 'K' => 'k'
  | 'L' => 'l'
  | 'M' => 'm'
  | 'N' => 'n'
  | 'O' => 'o'
  | 'P' => 'p'
  | 'Q' => 'q'
  | 'R' => 'r'
  | 'S' => 's'
  | 'T' => 't'
  | 'U' => 'u'
  | 'V' => 'v'
  | 'W' => 'w'
  | 'X' => 'x'
  | 'Y' => 'y'
  | 'Z' => 'z'
  | c => c

/-- Drop leading zeros of a digit string, keeping a single `'0'` for the
all-zero string; models the numeric normalization of the port by the WHATWG
parser. -/
def stripZeros (ds : List Char) : List Char :=
  match ds.dropWhile (fun c => c = '0') with
  | [] => ['0']
  | l => l

/-- Numeric value of a digit string (used only for the 65535 port bound). -/
def digitsVal (ds : List Char) : Nat :=
  ds.foldl (fun a c => a * 10 + (c.toNat - 48)) 0

/-- The components of a parsed URL that `getHostKey` can depend on. -/
structure UrlParts where
  scheme : List Char
  host : List Char
  port : Option (List Char)
  deriving DecidableEq, Repr

/-- Default port of the WHATWG special schemes, as a canonical digit string. -/
def defaultPortDigits : List Char → Option (List Char)
  | ['f', 't', 'p'] => some ['2', '1']
  | ['h', 't', 't', 'p'] => some ['8', '0']
  | ['h', 't', 't', 'p', 's'] => some ['4', '4', '3']
  | ['w', 's'] => some ['8', '0']
  | ['w', 's', 's'] => some ['4', '4', '3']
  | _ => none

/-- Characters allowed after the first character of a scheme. -/
def isSchemeChar (c : Char) : Bool :=
  c.isAlphanum || c = '+' || c = '-' || c = '.'

/-- The modelled fragment of WHATWG URL parsing, over the character list of
the URL string: `scheme://host[:port]` followed by an arbitrary
path/query/fragment.  Returns `none` exactly when `new URL(url)` would
throw (within the modelled fragment). -/
def parseUrlL (cs : List Char) : Option UrlParts :=
  let scheme := cs.takeWhile (fun c => c ≠ ':')
  match cs.dropWhile (fun c => c ≠ ':') with
  | ':' :: '/' :: '/' :: r =>
    if hs : scheme = [] then none
    else if ¬ (scheme.head hs).isAlpha then none
    else if ¬ scheme.all isSchemeChar then none
    else
      let auth := r.takeWhile (fun c => c ≠ '/' && c ≠ '?' && c ≠ '#')
      let host := (auth.takeWhile (fun c => c ≠ ':')).map lcChar
      if host = [] then none
      else
        match auth.dropWhile (fun c => c ≠ ':') with
        | [] => some ⟨scheme.map lcChar, host, none⟩
        | ':' :: pd =>
          if pd = [] then some ⟨scheme.map lcChar, host, none⟩
          else if pd.all Char.isDigit && digitsVal pd ≤ 65535 then
            some ⟨scheme.map lcChar, host, some (stripZeros pd)⟩
          else none
        | _ :: _ => none
  | _ => none

/-- Port as it appears in the serialized `.host`: elided when it equals the
scheme's default port. -/
def displayPort (p : UrlParts) : Option (List Char) :=
  match p.port with
  | none => none
  | some d => if some d = defaultPortDigits p.scheme then none else some d

/-- The `.host` getter of a parsed URL: `hostname` or `hostname:port`. -/
def hostKeyOfParts (p : UrlParts) : List Char :=
  match displayPort p with
  | none => p.host
  | some d => p.host ++ ':' :: d

/-- Parse a URL string (the collaborator `new URL(url)`). -/
def parseUrl (s : String) : Option UrlParts :=
  parseUrlL s.data

/-- The private method `getHostKey` of every variant: `new URL(url).host`,
`none` when the URL cannot be parsed (the counter variant turns this into
`Error ("Invalid URL: " ++ url)`, the async.queue variants let it
propagate). -/
def getHostKey (s : String) : Option String :=
  (parseUrl s).map (fun p => String.mk (hostKeyOfParts p))

/-! ## The counter variant (`src/src/httpClient.ts`)

State machine for the class with `hostQueue`/`hostCounters`.  Atomic steps
are the synchronous run-to-completion segments of the event loop:

* `fetchWithOptimization`: one external call, from entry until the first
  suspension (`await requestPromise`) — dedup check (line 20), host-key
  derivation (line 25), and the synchronous prefix of `executeRequest`:
  either buffering (lines 31–40) or counter increment, `fetch` start and
  dedup-map registration (lines 42–52);
* `completeTask`: the continuation that runs when the transport call of a
  running task settles — `resolve`/`reject` (lines 55/57) and the `finally`
  block (lines 58–84): dedup-map delete, counter decrement, and the
  re-invocation of `fetchWithOptimization` on the dequeued head of the
  host's buffer.

`resolve`/`reject` precede the `finally` block inside one synchronous
segment, and waiters observe the settlement only in a later microtask, so
one atomic step that both settles the future and cleans up is faithful. -/

/-- Association-list lookup, modelling `Map.get`/`Map.has` on the string-keyed
`inFlightRequests` map of every variant. -/
def alook (l : List (String × Nat)) (k : String) : Option Nat :=
  (l.find? (fun p => p.1 = k)).map (fun p => p.2)

namespace CounterVariant

/-- A buffered entry of `hostQueue`: the `{resolve, reject, url, options}`
object pushed at line 38.  `cid` identifies the caller whose outer promise
the `resolve`/`reject` pair settles; `seq` is instrumentation recording the
order in which entries were buffered. -/
structure QTask where
  cid : Nat
  url : String
  seq : Nat
  deriving DecidableEq, Repr

/-- A task whose transport call is in flight.  The task identity `tid` also
identifies the `requestPromise` stored in `inFlightRequests` (exactly one
promise exists per task); `fromBuf = some s` records that this task was
started by dequeuing the buffered entry with sequence number `s`. -/
structure RTask where
  tid : Nat
  url : String
  host : String
  fromBuf : Option Nat
  deriving DecidableEq, Repr

/-- How the promise returned to one caller settles: synchronously rejected,
chained to the future (the promise) of task `tid`, or still waiting for its
buffered entry to be dequeued. -/
inductive CallerRef where
  | err (e : JsError)
  | fut (tid : Nat)
  | waitBuf
  deriving DecidableEq, Repr

/-- One `fetch(url, options)` invocation (a transport call beginning). -/
structure BeginEv where
  tid : Nat
  url : String
  host : String
  fromBuf : Option Nat
  deriving DecidableEq, Repr

/-- The mutable state of the dispatcher plus instrumentation (`begins`,
`callers`, `futures`) recording the observable history. -/
structure St where
  inFlight : List (String × Nat)
  buf : String → List QTask
  ctr : String → Nat
  running : List RTask
  futures : Nat → Option (Except JsError SettledValue)
  callers : Nat → Option CallerRef
  begins : List BeginEv
  nextCid : Nat
  nextSeq : Nat
  nextTid : Nat

/-- The freshly constructed client: all maps empty. -/
def init : St :=
  { inFlight := []
    buf := fun _ => []
    ctr := fun _ => 0
    running := []
    futures := fun _ => none
    callers := fun _ => none
    begins := []
    nextCid := 0
    nextSeq := 0
    nextTid := 0 }

/-- Start the transport call for `url` on host `h` on behalf of caller
`cid`: increment the host counter (line 42), invoke `fetch` (line 45 — the
begin is logged), and register the request promise in `inFlightRequests`
(line 52). -/
def startTask (S : St) (cid : Nat) (url h : String) (fromBuf : Option Nat) : St :=
  { S with
    ctr := upd S.ctr h (S.ctr h + 1)
    inFlight := (url, S.nextTid) :: S.inFlight
    running := ⟨S.nextTid, url, h, fromBuf⟩ :: S.running
    callers := upd S.callers cid (some (CallerRef.fut S.nextTid))
    begins := S.begins ++ [⟨S.nextTid, url, h, fromBuf⟩]
    nextTid := S.nextTid + 1 }

/-- The body of `fetchWithOptimization` shared by an external call and by
the re-invocation from the completion path: dedup check (line 20), host-key
derivation with its try/catch (lines 7–15, 25), then the synchronous prefix
of `executeRequest` (lines 28–52): buffer when `activeRequests >=
MAX_CONCURRENT_REQUESTS`, otherwise start the transport call. -/
def submit (S : St) (cid : Nat) (url : String) (fromBuf : Option Nat) : St :=
  match alook S.inFlight url with
  | some f => { S with callers := upd S.callers cid (some (CallerRef.fut f)) }
  | none =>
    match getHostKey url with
    | none => { S with callers := upd S.callers cid (some (CallerRef.err (JsError.invalidUrl url))) }
    | some h =>
      if MAX_CONCURRENT_REQUESTS ≤ S.ctr h then
        { S with
          buf := upd S.buf h (S.buf h ++ [⟨cid, url, S.nextSeq⟩])
          nextSeq := S.nextSeq + 1
          callers := upd S.callers cid (some CallerRef.waitBuf) }
      else startTask S cid url h fromBuf

/-- One external call to `fetchWithOptimization(url)`: allocates the caller
identity and runs `submit`. -/
def fetchWithOptimization (S : St) (url : String) : St :=
  submit { S with nextCid := S.nextCid + 1 } S.nextCid url none

/-- How the settled `requestPromise` maps a transport outcome to the value
the counter variant delivers: the raw `Response` object on an ok status
(line 49), `HTTP Error: status` on a non-ok status (line 47), and the
propagated transport error otherwise. -/
def settleResult (out : TransportOutcome) : Except JsError SettledValue :=
  match out with
  | TransportOutcome.response r =>
    if r.ok then Except.ok (SettledValue.rawResponse r)
    else Except.error (JsError.httpStatus r.status)
  | TransportOutcome.netError m => Except.error (JsError.transport m)

/-- The settlement part of the completion continuation of running task `t`:
`resolve`/`reject` of the caller's promise (lines 54–57) and the first half
of the `finally` block (lines 59–60): delete the dedup entry for the task's
URL and decrement the host counter. -/
def settleCleanup (S : St) (t : RTask) (out : TransportOutcome) : St :=
  { S with
    futures := upd S.futures t.tid (some (settleResult out))
    running := S.running.filter (fun r => r.tid ≠ t.tid)
    inFlight := S.inFlight.filter (fun p => p.1 ≠ t.url)
    ctr := upd S.ctr t.host (S.ctr t.host - 1) }

/-- The work done when the transport call of the running task `t` settles:
`settleCleanup`, then the dequeue half of the `finally` block (lines
64–83): shift the head of the host's buffer, if any, and re-invoke
`fetchWithOptimization` on it, piping its result into the buffered caller's
`resolve`/`reject`. -/
def finishTask (S : St) (t : RTask) (out : TransportOutcome) : St :=
  match S.buf t.host with
  | [] => settleCleanup S t out
  | q :: rest =>
    submit { settleCleanup S t out with buf := upd S.buf t.host rest } q.cid q.url (some q.seq)

/-- The completion continuation of running task `tid`. -/
def completeTask (S : St) (tid : Nat) (out : TransportOutcome) : St :=
  match S.running.find? (fun t => t.tid = tid) with
  | none => S
  | some t => finishTask S t out

/-- Environment events: an external call, or the settlement of the
transport call of a running task with a given outcome. -/
inductive Ev where
  | call (url : String)
  | complete (tid : Nat) (out : TransportOutcome)
  deriving DecidableEq, Repr

/-- One atomic event-loop segment. -/
def step (S : St) : Ev → St
  | Ev.call url => fetchWithOptimization S url
  | Ev.complete tid out => completeTask S tid out

/-- The state after a sequence of events, starting from the fresh client. -/
def run (evs : List Ev) : St :=
  evs.foldl step init

/-- The settled result one caller observes: the value of the future its
promise is chained to. -/
def resultOf (S : St) (cid : Nat) : Option (Except JsError SettledValue) :=
  match S.callers cid with
  | some (CallerRef.fut f) => S.futures f
  | some (CallerRef.err e) => some (Except.error e)
  | _ => none

/-- Every entry of the dedup map points at a task whose transport call has
been logged: registration happens at transport start (line 52 follows line
45 in one synchronous segment), and entries are only ever removed. -/
def regBegun (S : St) : Prop :=
  ∀ p ∈ S.inFlight, ∃ b ∈ S.begins, b.tid = p.2 ∧ b.url = p.1

end CounterVariant

namespace AsyncQueueVariant

/-! ## The async.queue variants (`src/unnamed/part_001`)

State machine for the three drafts built on `async.queue`.  The queue
library is an external collaborator; its documented behaviour is modelled:
`push` appends the task to the host's buffer (worker invocation is
deferred, so a pushed task never starts within the pushing segment), a
worker slot claims the buffer head only while fewer than the concurrency
limit are running (`dispatch`), and the `callback()` in the worker's
`finally` releases the slot.

The machine is parametrised by `stamp`: `false` for the first two drafts,
`true` for the singleton draft, whose worker overwrites
`task.options.headers` with a spread copy carrying an `x-callstart`
timestamp (part_001 lines 308–313) before calling `fetch`.

Atomic steps:

* `fetchWithOptimization`: the whole external call (it contains no `await`
  before returning the outer promise): body normalization, dedup check,
  `getHostKey`, lazy queue creation, task push and dedup-map registration;
* `dispatch`: a worker slot claims the buffer head and starts its
  transport call;
* `completeTask`: the worker's continuation after `fetch`/`json()` settle:
  `task.resolve`/`task.reject`, then the `finally` block (dedup-map delete
  and `callback()`). -/

/-- A `QueueTask` of the source: `{url, options, resolve, reject}`.  The
task identity `tid` (its creation sequence number) also identifies the
inner promise its `resolve`/`reject` settle, since exactly one inner
promise exists per task. -/
structure Task where
  tid : Nat
  url : String
  opts : RequestOptions
  deriving DecidableEq, Repr

/-- How the promise returned to one caller settles: synchronously rejected,
or chained to the inner promise of task `tid`. -/
inductive CallerRef where
  | err (e : JsError)
  | fut (tid : Nat)
  deriving DecidableEq, Repr

/-- One `fetch(task.url, task.options)` invocation, with the headers object
actually handed to the transport. -/
structure BeginEv where
  tid : Nat
  url : String
  host : String
  sentHeaders : HeaderObj
  deriving DecidableEq, Repr

/-- The mutable state of the dispatcher plus instrumentation. -/
structure St where
  inFlight : List (String × Nat)
  hasQueue : List String
  buf : String → List Task
  runCnt : String → Nat
  running : List (Task × String)
  futures : Nat → Option (Except JsError String)
  callers : Nat → Option CallerRef
  callerOpts : Nat → Option RequestOptions
  tasksLog : List (Nat × String)
  begins : List BeginEv
  completes : List Nat
  nextCid : Nat
  nextTid : Nat

/-- The freshly constructed client. -/
def init : St :=
  { inFlight := []
    hasQueue := []
    buf := fun _ => []
    runCnt := fun _ => 0
    running := []
    futures := fun _ => none
    callers := fun _ => none
    callerOpts := fun _ => none
    tasksLog := []
    begins := []
    completes := []
    nextCid := 0
    nextTid := 0 }

/-- One external call to `fetchWithOptimization(url, options)` (part_001
lines 45–119): normalize `options.body` (lines 49–51, in place on the
caller's object, before anything else), dedup check (line 54), `getHostKey`
(line 60, throws on an unparsable URL), lazy queue creation (lines 63–96),
then push the task and register the inner promise in `inFlightRequests`
(lines 100–118). -/
def fetchWithOptimization (S : St) (url : String) (o : RequestOptions) : St :=
  let o' := normalizeBody o
  let cid := S.nextCid
  let S0 : St := { S with
    nextCid := cid + 1
    callerOpts := upd S.callerOpts cid (some o') }
  match alook S0.inFlight url with
  | some f => { S0 with callers := upd S0.callers cid (some (CallerRef.fut f)) }
  | none =>
    match getHostKey url with
    | none =>
      { S0 with callers := upd S0.callers cid (some (CallerRef.err (JsError.invalidUrl url))) }
    | some h =>
      let S1 : St :=
        if h ∈ S0.hasQueue then S0 else { S0 with hasQueue := h :: S0.hasQueue }
      { S1 with
        buf := upd S1.buf h (S1.buf h ++ [⟨S1.nextTid, url, o'⟩])
        inFlight := (url, S1.nextTid) :: S1.inFlight
        callers := upd S1.callers cid (some (CallerRef.fut S1.nextTid))
        tasksLog := S1.tasksLog ++ [(S1.nextTid, url)]
        nextTid := S1.nextTid + 1 }

/-- A worker slot of host `h` claims the buffer head: only while fewer than
`MAX_CONCURRENT_REQUESTS` tasks of `h` are running.  In the singleton
variant (`stamp = true`) the worker first overwrites `task.options.headers`
with a spread copy carrying `x-callstart := ts` (part_001 lines 308–313);
then `fetch(task.url, task.options)` begins. -/
def dispatch (stamp : Bool) (S : St) (h : String) (ts : String) : St :=
  match S.buf h with
  | [] => S
  | t :: rest =>
    if S.runCnt h < MAX_CONCURRENT_REQUESTS then
      let sent := if stamp then objSet t.opts.headers "x-callstart" ts else t.opts.headers
      let t' : Task := { t with opts := { t.opts with headers := sent } }
      { S with
        buf := upd S.buf h rest
        runCnt := upd S.runCnt h (S.runCnt h + 1)
        running := (t', h) :: S.running
        begins := S.begins ++ [⟨t.tid, t.url, h, sent⟩] }
    else S

/-- How the worker maps a transport outcome to the settlement of the inner
promise: non-ok status first (`HTTP Error: status`, lines 69–71), then
`response.json()` (parsed body on success, decode failure rejects), and a
transport failure propagates the rejection of `fetch`. -/
def settleResult (out : TransportOutcome) : Except JsError String :=
  match out with
  | TransportOutcome.response r =>
    if r.ok then
      match r.jsonBody with
      | some s => Except.ok s
      | none => Except.error JsError.decode
    else Except.error (JsError.httpStatus r.status)
  | TransportOutcome.netError m => Except.error (JsError.transport m)

/-- The worker continuation when the transport call of running task `tid`
settles: `task.resolve(data)` / `task.reject(error)` (lines 78/81), then the
`finally` block (lines 82–87): delete the dedup entry for `task.url` and
release the worker slot via `callback()`. -/
def completeTask (S : St) (tid : Nat) (out : TransportOutcome) : St :=
  match S.running.find? (fun p => p.1.tid = tid) with
  | none => S
  | some (t, h) =>
    { S with
      futures := upd S.futures t.tid (some (settleResult out))
      inFlight := S.inFlight.filter (fun p => p.1 ≠ t.url)
      runCnt := upd S.runCnt h (S.runCnt h - 1)
      running := S.running.filter (fun p => p.1.tid ≠ tid)
      completes := S.completes ++ [tid] }

/-- Environment events: an external call, a worker slot claiming a buffered
task (with the wall-clock timestamp the singleton variant would stamp), or
the settlement of a running task's transport call. -/
inductive Ev where
  | call (url : String) (o : RequestOptions)
  | dispatch (h : String) (ts : String)
  | complete (tid : Nat) (out : TransportOutcome)
  deriving DecidableEq, Repr

/-- One atomic event-loop segment. -/
def step (stamp : Bool) (S : St) : Ev → St
  | Ev.call url o => fetchWithOptimization S url o
  | Ev.dispatch h ts => dispatch stamp S h ts
  | Ev.complete tid out => completeTask S tid out

/-- The state after a sequence of events, starting from the fresh client. -/
def run (stamp : Bool) (evs : List Ev) : St :=
  evs.foldl (step stamp) init

/-- The settled result one caller observes. -/
def resultOf (S : St) (cid : Nat) : Option (Except JsError String) :=
  match S.callers cid with
  | some (CallerRef.fut f) => S.futures f
  | some (CallerRef.err e) => some (Except.error e)
  | none => none

/-- A task that exists in the system: buffered in some host's queue or
running. -/
def liveTask (S : St) (t : Task) : Prop :=
  (∃ h, t ∈ S.buf h) ∨ (∃ h, (t, h) ∈ S.running)

end AsyncQueueVariant

namespace CounterVariant

/-! ## Counter-variant invariants -/

/-- Sequence numbers of the buffered entries of host `h` whose transport
call has begun, in the order those transport calls began. -/
def begunSeqs (S : St) (h : String) : List Nat :=
  S.begins.filterMap (fun b => if b.host = h then b.fromBuf else none)

/-- Reachability invariant of the counter variant: the host counter counts
the running tasks of the host and respects the limit; task identities are
unique and fresh; buffered entries carry strictly increasing sequence
numbers belonging to their host; and the buffered entries already begun
precede (in sequence number) everything still buffered. -/
structure Inv (S : St) : Prop where
  ctr_count : ∀ h, S.ctr h = (S.running.filter (fun t => t.host = h)).length
  ctr_le : ∀ h, S.ctr h ≤ MAX_CONCURRENT_REQUESTS
  run_tid_nodup : (S.running.map (fun t => t.tid)).Nodup
  run_tid_lt : ∀ t ∈ S.running, t.tid < S.nextTid
  run_host : ∀ t ∈ S.running, getHostKey t.url = some t.host
  buf_host : ∀ h, ∀ q ∈ S.buf h, getHostKey q.url = some h
  buf_sorted : ∀ h, (S.buf h).Pairwise (fun a b => a.seq < b.seq)
  buf_seq_lt : ∀ h, ∀ q ∈ S.buf h, q.seq < S.nextSeq
  begun_sorted : ∀ h, (begunSeqs S h).Pairwise (fun a b => a < b)
  begun_lt_buf : ∀ h, ∀ g ∈ begunSeqs S h, ∀ q ∈ S.buf h, g < q.seq
  begun_lt : ∀ h, ∀ g ∈ begunSeqs S h, g < S.nextSeq
  beg_tid_nodup : (S.begins.map (fun b => b.tid)).Nodup
  beg_tid_lt : ∀ b ∈ S.begins, b.tid < S.nextTid

/-- The transformation a step applies to the `futures` store, as a function
of the non-future state. -/
def futTrans (S : St) (e : Ev) (φ : Nat → Option (Except JsError SettledValue)) :
    Nat → Option (Except JsError SettledValue) :=
  match e with
  | Ev.call _ => φ
  | Ev.complete tid out =>
    match S.running.find? (fun r => r.tid = tid) with
    | none => φ
    | some t => upd φ t.tid (some (settleResult out))

/-- Continue running events from an arbitrary state. -/
def runFrom (S : St) (evs : List Ev) : St :=
  evs.foldl step S

/-- Two states that agree on every field, except that their `futures`
stores may differ at the single future `f`. -/
def agreeExcept (f : Nat) (S T : St) : Prop :=
  T.inFlight = S.inFlight ∧ T.buf = S.buf ∧ T.ctr = S.ctr ∧ T.running = S.running ∧
  T.callers = S.callers ∧ T.begins = S.begins ∧ T.nextCid = S.nextCid ∧
  T.nextSeq = S.nextSeq ∧ T.nextTid = S.nextTid ∧
  ∀ g, g ≠ f → T.futures g = S.futures g

end CounterVariant

namespace AsyncQueueVariant

/-! ## Async.queue-variant invariants -/

/-- Reachability invariant of the async.queue variants: the worker count of
a host counts its running tasks and respects the limit; task identities are
unique and fresh across the whole system; every buffered or running task is
registered in the dedup map under its URL and vice versa; buffered tasks of
a host carry strictly increasing identities; transport calls begin at most
once per task, never for a still-buffered task, and exactly once before a
completion. -/
structure Inv (S : St) : Prop where
  cnt_count : ∀ h, S.runCnt h = (S.running.filter (fun p => p.2 = h)).length
  cnt_le : ∀ h, S.runCnt h ≤ MAX_CONCURRENT_REQUESTS
  buf_sorted : ∀ h, (S.buf h).Pairwise (fun a b => a.tid < b.tid)
  buf_tid_lt : ∀ h, ∀ t ∈ S.buf h, t.tid < S.nextTid
  run_tid_nodup : (S.running.map (fun p => p.1.tid)).Nodup
  run_tid_lt : ∀ p ∈ S.running, p.1.tid < S.nextTid
  buf_run_disj : ∀ h, ∀ t ∈ S.buf h, ∀ p ∈ S.running, t.tid ≠ p.1.tid
  buf_cross : ∀ h1 h2, ∀ t1 ∈ S.buf h1, ∀ t2 ∈ S.buf h2, t1.tid = t2.tid → h1 = h2
  buf_host : ∀ h, ∀ t ∈ S.buf h, getHostKey t.url = some h
  run_host : ∀ p ∈ S.running, getHostKey p.1.url = some p.2
  reg_live : ∀ u f, alook S.inFlight u = some f →
    ∃ t, liveTask S t ∧ t.url = u ∧ t.tid = f
  live_reg : ∀ t, liveTask S t → alook S.inFlight t.url = some t.tid
  live_url : ∀ t1 t2, liveTask S t1 → liveTask S t2 → t1.url = t2.url → t1.tid = t2.tid
  inflight_nodup : (S.inFlight.map (fun p => p.1)).Nodup
  begun_sorted : ∀ h,
    ((S.begins.filter (fun b => b.host = h)).map (fun b => b.tid)).Pairwise (fun a b => a < b)
  begun_lt_buf : ∀ h, ∀ b ∈ S.begins, b.host = h → ∀ t ∈ S.buf h, b.tid < t.tid
  beg_tid_nodup : (S.begins.map (fun b => b.tid)).Nodup
  beg_tid_lt : ∀ b ∈ S.begins, b.tid < S.nextTid
  buf_not_begun : ∀ h, ∀ t ∈ S.buf h, ∀ b ∈ S.begins, b.tid ≠ t.tid
  run_begun : ∀ p ∈ S.running, ∃ b ∈ S.begins, b.tid = p.1.tid
  completed_begun : ∀ k ∈ S.completes, ∃ b ∈ S.begins, b.tid = k

/-- Continue running events from an arbitrary state. -/
def runFrom (stamp : Bool) (S : St) (evs : List Ev) : St :=
  evs.foldl (step stamp) S

/-- The transformation a step applies to the `futures` store, as a function
of the non-future state. -/
def futTrans (S : St) (e : Ev) (φ : Nat → Option (Except JsError String)) :
    Nat → Option (Except JsError String) :=
  match e with
  | Ev.call _ _ => φ
  | Ev.dispatch _ _ => φ
  | Ev.complete tid out =>
    match S.running.find? (fun p => p.1.tid = tid) with
    | none => φ
    | some (t, _) => upd φ t.tid (some (settleResult out))

/-- Two states that agree on every field, except that their `futures`
stores may differ at the single future `f`. -/
def agreeExcept (f : Nat) (S T : St) : Prop :=
  T.inFlight = S.inFlight ∧ T.hasQueue = S.hasQueue ∧ T.buf = S.buf ∧
  T.runCnt = S.runCnt ∧ T.running = S.running ∧ T.callers = S.callers ∧
  T.callerOpts = S.callerOpts ∧ T.tasksLog = S.tasksLog ∧ T.begins = S.begins ∧
  T.completes = S.completes ∧ T.nextCid = S.nextCid ∧ T.nextTid = S.nextTid ∧
  ∀ g, g ≠ f → T.futures g = S.futures g

end AsyncQueueVariant

/-- Request options used by the demonstration traces. -/
def demoOpts : RequestOptions := ⟨JsBody.undef, [], "rest"⟩

/-- Demonstration trace for the counter variant: three distinct URLs of
host `h.com` fill the three slots; `x`, `d` and a second call to `x` are
buffered (the dedup map holds no entry for `x` while its first task sits in
the buffer, so the duplicate creates a second buffered task); the three
completions then dequeue `x`, `d`, and — after the first `x` task has
settled and deregistered — the duplicate `x`, starting a second transport
call for the same fingerprint. -/
def cvDemoEvs : List CounterVariant.Ev :=
  [CounterVariant.Ev.call "http://h.com/a",
   CounterVariant.Ev.call "http://h.com/b",
   CounterVariant.Ev.call "http://h.com/c",
   CounterVariant.Ev.call "http://h.com/x",
   CounterVariant.Ev.call "http://h.com/d",
   CounterVariant.Ev.call "http://h.com/x",
   CounterVariant.Ev.complete 0 (TransportOutcome.response ⟨200, some "A"⟩),
   CounterVariant.Ev.complete 1 (TransportOutcome.response ⟨200, some "B"⟩),
   CounterVariant.Ev.complete 3 (TransportOutcome.response ⟨200, some "X1"⟩)]

/-- One-call demonstration trace for the async.queue variants. -/
def aqDemoC1 : List AsyncQueueVariant.Ev :=
  [AsyncQueueVariant.Ev.call "http://h.com/x" demoOpts]

/-- One call plus an ok completion on the counter variant. -/
def cvDemoC6 : List CounterVariant.Ev :=
  [CounterVariant.Ev.call "http://h.com/a",
   CounterVariant.Ev.complete 0 (TransportOutcome.response ⟨200, some "payload"⟩)]

/-- One call plus one worker dispatch on an async.queue variant. -/
def aqDemoC6 : List AsyncQueueVariant.Ev :=
  [AsyncQueueVariant.Ev.call "http://h.com/x" demoOpts,
   AsyncQueueVariant.Ev.dispatch "h.com" "T0"]

/-- Options with a JavaScript `null` body, as a caller would pass them. -/
def nullBodyOpts : RequestOptions := ⟨JsBody.null, [("accept", "json")], "r"⟩

/-- Options carrying a caller-supplied `x-callstart` header. -/
def hdrOpts : RequestOptions :=
  ⟨JsBody.undef, [("x-callstart", "caller"), ("accept", "json")], "r"⟩

/-! ## Properties -/

theorem upd_ne {α β : Type} [DecidableEq α] (f : α → β) (k : α) (v : β)
    {q : α} (h : q ≠ k) : upd f k v q = f q := by
  simp [upd, h]

theorem lcChar_eq_colon {c : Char} (h : lcChar c = ':') : c = ':' := by
  unfold lcChar at h
  split at h <;> first | exact h | exact absurd h (by decide)

example : getHostKey "http://example.com/x" = some "example.com" := by decide

example : getHostKey "https://example.com:443/x" = some "example.com" := by decide

example : getHostKey "https://example.com:8443/x" = some "example.com:8443" := by decide

example : getHostKey "HTTP://EXample.com:0080/x" = some "example.com" := by decide

example : getHostKey "not a url" = none := by decide

example : getHostKey "http://h.com:99999/x" = none := by decide

/-! ## List bookkeeping lemmas

Small facts about association-list lookup, filtering and counting used by
the invariant proofs of both machines. -/
theorem alook_cons (u : String) (v : Nat) (l : List (String × Nat)) (k : String) :
    alook ((u, v) :: l) k = if u = k then some v else alook l k := by
  by_cases h : u = k <;> simp [alook, List.find?, h]

theorem alook_mem {l : List (String × Nat)} {k : String} {v : Nat}
    (h : alook l k = some v) : (k, v) ∈ l := by
  unfold alook at h
  rcases hf : l.find? (fun p => p.1 = k) with _ | p
  · rw [hf] at h
    simp at h
  · rw [hf] at h
    simp at h
    have hp := List.find?_some hf
    have hm := List.mem_of_find?_eq_some hf
    simp at hp
    have : p = (k, v) := by
      cases p
      simp_all
    rw [this] at hm
    exact hm

theorem alook_eq_none {l : List (String × Nat)} {k : String} :
    alook l k = none ↔ ∀ p ∈ l, p.1 ≠ k := by
  unfold alook
  constructor
  · intro h p hp
    rcases hf : l.find? (fun p => p.1 = k) with _ | q
    · have := List.find?_eq_none.mp hf p hp
      simpa using this
    · rw [hf] at h
      simp at h
  · intro h
    have : l.find? (fun p => p.1 = k) = none := by
      apply List.find?_eq_none.mpr
      intro p hp
      simpa using h p hp
    simp [this]

theorem alook_filter_ne {l : List (String × Nat)} {u k : String} (h : k ≠ u) :
    alook (l.filter (fun p => p.1 ≠ u)) k = alook l k := by
  induction l with
  | nil => rfl
  | cons p l ih =>
    by_cases hp : p.1 = u
    · have hpk : p.1 ≠ k := by
        rw [hp]
        exact fun hk => h hk.symm
      cases p
      simp_all [alook_cons, List.filter]
    · cases p with
    | mk a b =>
      simp at hp
      by_cases hak : a = k <;> simp_all [alook_cons, List.filter, hp]

theorem alook_filter_self (l : List (String × Nat)) (u : String) :
    alook (l.filter (fun p => p.1 ≠ u)) u = none := by
  rw [alook_eq_none]
  intro p hp
  have := List.of_mem_filter hp
  simpa using this

/-- Counting after removing the unique element with a given key: filtering
out `key x` removes exactly `x` from any count, provided keys are unique. -/
theorem length_filter_remove {α : Type} (key : α → Nat) (p : α → Bool)
    (l : List α) (x : α) (hx : x ∈ l) (hnd : (l.map key).Nodup) :
    ((l.filter (fun a => key a ≠ key x)).filter p).length =
      (l.filter p).length - (if p x then 1 else 0) := by
  induction l with
  | nil => cases hx
  | cons y ys ih =>
    simp only [List.map_cons, List.nodup_cons] at hnd
    rcases List.mem_cons.mp hx with hxy | hxys
    · subst hxy
      have hys : ys.filter (fun a => key a ≠ key x) = ys := by
        apply List.filter_eq_self.mpr
        intro a ha
        have : key a ≠ key x := by
          intro hcon
          exact hnd.1 (hcon ▸ List.mem_map_of_mem key ha)
        simpa using this
      have h1 : List.filter (fun a => decide (key a ≠ key x)) (x :: ys) = ys := by
        rw [List.filter_cons]
        simpa using hys
      rw [h1, List.filter_cons]
      by_cases hpx : p x <;> simp [hpx]
    · have hkey : key y ≠ key x := by
        intro hcon
        exact hnd.1 (hcon ▸ List.mem_map_of_mem key hxys)
      have hrec := ih hxys hnd.2
      have hle : (if p x then 1 else 0) ≤ (ys.filter p).length := by
        by_cases hpx : p x
        · simp only [hpx, if_true]
          have : x ∈ ys.filter p := List.mem_filter.mpr ⟨hxys, hpx⟩
          exact Nat.one_le_iff_ne_zero.mpr (by
            intro h0
            rw [List.length_eq_zero] at h0
            simp [h0] at this)
        · simp [hpx]
      have h1 : List.filter (fun a => decide (key a ≠ key x)) (y :: ys)
          = y :: List.filter (fun a => decide (key a ≠ key x)) ys := by
        rw [List.filter_cons]
        simp [hkey]
      rw [h1, List.filter_cons, List.filter_cons]
      by_cases hpx : p x <;> by_cases hpy : p y <;>
        simp [hpx, hpy] at hrec hle ⊢ <;> omega

/-- Filtering a list by one key value counts occurrences of that key. -/
theorem length_filter_key {α : Type} (key : α → Nat) (l : List α) (k : Nat) :
    (l.filter (fun a => key a = k)).length = (l.map key).count k := by
  induction l with
  | nil => rfl
  | cons y ys ih =>
    rw [List.filter_cons, List.map_cons, List.count_cons]
    by_cases h : key y = k
    · have hb : (k == key y) = true := by simp [h]
      simp [h, ih, hb]
    · have hb : (k == key y) = false := by simp [Ne.symm h]
      simp [h, ih, hb]

theorem count_le_one_of_nodup {l : List Nat} (h : l.Nodup) (k : Nat) :
    l.count k ≤ 1 :=
  List.nodup_iff_count_le_one.mp h k

namespace CounterVariant

theorem init_inv : Inv init := by
  constructor <;> simp [init, begunSeqs]

theorem begunSeqs_startTask (S : St) (cid : Nat) (url h : String) (fb : Option Nat) (h' : String) :
    begunSeqs (startTask S cid url h fb) h' =
      begunSeqs S h' ++ (if h = h' then fb.toList else []) := by
  unfold begunSeqs startTask
  rw [List.filterMap_append]
  by_cases hh : h = h' <;> cases fb <;> simp [hh]

theorem startTask_inv (S : St) (cid : Nat) (url h : String) (fb : Option Nat)
    (hS : Inv S) (hguard : S.ctr h < MAX_CONCURRENT_REQUESTS)
    (hurl : getHostKey url = some h)
    (hfb : ∀ m, fb = some m →
      (∀ g ∈ begunSeqs S h, g < m) ∧ (∀ q ∈ S.buf h, m < q.seq) ∧ m < S.nextSeq) :
    Inv (startTask S cid url h fb) := by
  constructor
  · intro h''
    by_cases hh : h'' = h
    · subst hh
      simp only [startTask, upd_same]
      rw [List.filter_cons]
      simp [hS.ctr_count h'']
    · simp only [startTask]
      rw [upd_ne _ _ _ hh, List.filter_cons]
      have : ¬ ((⟨S.nextTid, url, h, fb⟩ : RTask).host = h'') := fun hc => hh (by simpa using hc.symm)
      simp [this, hS.ctr_count h'']
  · intro h''
    by_cases hh : h'' = h
    · subst hh
      simp only [startTask, upd_same]
      omega
    · simp only [startTask]
      rw [upd_ne _ _ _ hh]
      exact hS.ctr_le h''
  · simp only [startTask, List.map_cons, List.nodup_cons]
    exact ⟨fun hc => by
      rcases List.mem_map.mp hc with ⟨t, ht, htid⟩
      exact Nat.ne_of_lt (hS.run_tid_lt t ht) htid, hS.run_tid_nodup⟩
  · intro t ht
    simp only [startTask, List.mem_cons] at ht
    rcases ht with rfl | ht
    · simp [startTask]
    · simp only [startTask]
      exact Nat.lt_succ_of_lt (hS.run_tid_lt t ht)
  · intro t ht
    simp only [startTask, List.mem_cons] at ht
    rcases ht with rfl | ht
    · simpa using hurl
    · exact hS.run_host t ht
  · intro h'' q hq
    exact hS.buf_host h'' q hq
  · intro h''
    exact hS.buf_sorted h''
  · intro h'' q hq
    exact hS.buf_seq_lt h'' q hq
  · intro h''
    rw [begunSeqs_startTask]
    apply List.pairwise_append.mpr
    refine ⟨hS.begun_sorted h'', ?_, ?_⟩
    · rcases fb with _ | m <;> by_cases hh : h = h'' <;> simp [hh]
    · intro a ha b hb
      by_cases hh : h = h''
      · rcases fb with _ | m
        · simp [hh] at hb
        · simp only [hh, if_true, Option.toList_some, List.mem_singleton] at hb
          subst hb
          subst hh
          exact (hfb b rfl).1 a ha
      · simp [hh] at hb
  · intro h'' g hg q hq
    rw [begunSeqs_startTask] at hg
    rcases List.mem_append.mp hg with hg | hg
    · exact hS.begun_lt_buf h'' g hg q hq
    · by_cases hh : h = h''
      · rcases fb with _ | m
        · simp [hh] at hg
        · simp only [hh, if_true, Option.toList_some, List.mem_singleton] at hg
          subst hg
          subst hh
          exact (hfb g rfl).2.1 q hq
      · simp [hh] at hg
  · intro h'' g hg
    rw [begunSeqs_startTask] at hg
    rcases List.mem_append.mp hg with hg | hg
    · exact hS.begun_lt h'' g hg
    · by_cases hh : h = h''
      · rcases fb with _ | m
        · simp [hh] at hg
        · simp only [hh, if_true, Option.toList_some, List.mem_singleton] at hg
          subst hg
          exact (hfb g rfl).2.2
      · simp [hh] at hg
  · simp only [startTask, List.map_append, List.map_cons, List.map_nil]
    rw [List.nodup_append]
    refine ⟨hS.beg_tid_nodup, by simp, ?_⟩
    intro a ha
    simp only [List.mem_singleton]
    rcases List.mem_map.mp ha with ⟨b, hb, hbe⟩
    subst hbe
    simp
    exact Nat.ne_of_lt (hS.beg_tid_lt b hb)
  · intro b hb
    simp only [startTask, List.mem_append, List.mem_singleton] at hb
    rcases hb with hb | rfl
    · simp only [startTask]
      exact Nat.lt_succ_of_lt (hS.beg_tid_lt b hb)
    · simp [startTask]

theorem begunSeqs_congr {S T : St} (h : T.begins = S.begins) :
    begunSeqs T = begunSeqs S := by
  funext h''
  unfold begunSeqs
  rw [h]

/-- Invariance is insensitive to the fields (`futures`, `callers`,
`inFlight`, `nextCid`) it does not mention. -/
theorem Inv_frame {S T : St} (hS : Inv S)
    (hctr : T.ctr = S.ctr) (hrun : T.running = S.running) (hbuf : T.buf = S.buf)
    (hbeg : T.begins = S.begins) (hseq : T.nextSeq = S.nextSeq)
    (htid : T.nextTid = S.nextTid) : Inv T := by
  have hbs := begunSeqs_congr hbeg
  constructor
  · intro h
    rw [hctr, hrun]
    exact hS.ctr_count h
  · intro h
    rw [hctr]
    exact hS.ctr_le h
  · rw [hrun]
    exact hS.run_tid_nodup
  · intro t ht
    rw [htid]
    exact hS.run_tid_lt t (hrun ▸ ht)
  · intro t ht
    exact hS.run_host t (hrun ▸ ht)
  · intro h q hq
    exact hS.buf_host h q (hbuf ▸ hq)
  · intro h
    rw [hbuf]
    exact hS.buf_sorted h
  · intro h q hq
    rw [hseq]
    exact hS.buf_seq_lt h q (hbuf ▸ hq)
  · intro h
    rw [hbs]
    exact hS.begun_sorted h
  · intro h g hg q hq
    exact hS.begun_lt_buf h g (hbs ▸ hg) q (hbuf ▸ hq)
  · intro h g hg
    rw [hseq]
    exact hS.begun_lt h g (hbs ▸ hg)
  · rw [hbeg]
    exact hS.beg_tid_nodup
  · intro b hb
    rw [htid]
    exact hS.beg_tid_lt b (hbeg ▸ hb)

theorem submit_inv (S : St) (cid : Nat) (url : String) (fb : Option Nat) (hS : Inv S)
    (hfb : ∀ m, fb = some m → ∀ h, getHostKey url = some h →
      (∀ g ∈ begunSeqs S h, g < m) ∧ (∀ q ∈ S.buf h, m < q.seq) ∧ m < S.nextSeq) :
    Inv (submit S cid url fb) := by
  unfold submit
  split
  next f _ => exact Inv_frame hS rfl rfl rfl rfl rfl rfl
  next _ =>
    split
    next _ => exact Inv_frame hS rfl rfl rfl rfl rfl rfl
    next h hkey =>
      split
      next hctr =>
        constructor
        all_goals dsimp only
        · exact hS.ctr_count
        · exact hS.ctr_le
        · exact hS.run_tid_nodup
        · exact hS.run_tid_lt
        · exact hS.run_host
        · intro h'' q hq
          by_cases hh : h'' = h
          · subst hh
            rw [upd_same] at hq
            rcases List.mem_append.mp hq with hq | hq
            · exact hS.buf_host h'' q hq
            · rw [List.mem_singleton] at hq
              subst hq
              exact hkey
          · rw [upd_ne _ _ _ hh] at hq
            exact hS.buf_host h'' q hq
        · intro h''
          by_cases hh : h'' = h
          · subst hh
            rw [upd_same]
            apply List.pairwise_append.mpr
            refine ⟨hS.buf_sorted h'', by simp, ?_⟩
            intro a ha b hb
            rw [List.mem_singleton] at hb
            subst hb
            exact hS.buf_seq_lt h'' a ha
          · rw [upd_ne _ _ _ hh]
            exact hS.buf_sorted h''
        · intro h'' q hq
          by_cases hh : h'' = h
          · subst hh
            rw [upd_same] at hq
            rcases List.mem_append.mp hq with hq | hq
            · exact Nat.lt_succ_of_lt (hS.buf_seq_lt h'' q hq)
            · rw [List.mem_singleton] at hq
              subst hq
              exact Nat.lt_succ_self _
          · rw [upd_ne _ _ _ hh] at hq
            exact Nat.lt_succ_of_lt (hS.buf_seq_lt h'' q hq)
        · exact hS.begun_sorted
        · intro h'' g hg q hq
          by_cases hh : h'' = h
          · subst hh
            rw [upd_same] at hq
            rcases List.mem_append.mp hq with hq | hq
            · exact hS.begun_lt_buf h'' g hg q hq
            · rw [List.mem_singleton] at hq
              subst hq
              exact hS.begun_lt h'' g hg
          · rw [upd_ne _ _ _ hh] at hq
            exact hS.begun_lt_buf h'' g hg q hq
        · intro h'' g hg
          exact Nat.lt_succ_of_lt (hS.begun_lt h'' g hg)
        · exact hS.beg_tid_nodup
        · exact hS.beg_tid_lt
      next hctr =>
        exact startTask_inv S cid url h fb hS (Nat.lt_of_not_le hctr) hkey
          (fun m hm => hfb m hm h hkey)

theorem fetchWithOptimization_inv (S : St) (url : String) (hS : Inv S) :
    Inv (fetchWithOptimization S url) := by
  unfold fetchWithOptimization
  exact submit_inv _ _ _ _ (Inv_frame hS rfl rfl rfl rfl rfl rfl)
    (fun m hm => Option.noConfusion hm)

theorem settleCleanup_inv (S : St) (t : RTask) (out : TransportOutcome)
    (hS : Inv S) (ht : t ∈ S.running) : Inv (settleCleanup S t out) := by
  constructor
  · intro h''
    have hrem := length_filter_remove (fun r => r.tid) (fun r => decide (r.host = h''))
      S.running t ht hS.run_tid_nodup
    by_cases hh : h'' = t.host
    · subst hh
      simp only [settleCleanup, upd_same]
      rw [hS.ctr_count t.host, hrem]
      simp
    · simp only [settleCleanup]
      rw [upd_ne _ _ _ hh, hS.ctr_count h'', hrem]
      have hns : ¬ (t.host = h'') := fun hc => hh hc.symm
      simp [hns]
  · intro h''
    by_cases hh : h'' = t.host
    · subst hh
      simp only [settleCleanup, upd_same]
      exact Nat.le_trans (Nat.sub_le _ _) (hS.ctr_le t.host)
    · simp only [settleCleanup]
      rw [upd_ne _ _ _ hh]
      exact hS.ctr_le h''
  · exact hS.run_tid_nodup.sublist ((List.filter_sublist _).map _)
  · intro r hr
    exact hS.run_tid_lt r (List.mem_of_mem_filter hr)
  · intro r hr
    exact hS.run_host r (List.mem_of_mem_filter hr)
  · exact hS.buf_host
  · exact hS.buf_sorted
  · exact hS.buf_seq_lt
  · exact hS.begun_sorted
  · exact hS.begun_lt_buf
  · exact hS.begun_lt
  · exact hS.beg_tid_nodup
  · exact hS.beg_tid_lt

theorem finishTask_inv (S : St) (t : RTask) (out : TransportOutcome)
    (hS : Inv S) (ht : t ∈ S.running) : Inv (finishTask S t out) := by
  have hS1 : Inv (settleCleanup S t out) := settleCleanup_inv S t out hS ht
  unfold finishTask
  split
  next _ => exact hS1
  next q rest hbuf =>
    have hqmem : q ∈ S.buf t.host := by
      rw [hbuf]
      exact List.mem_cons_self _ _
    have hqhost : getHostKey q.url = some t.host := hS.buf_host t.host q hqmem
    apply submit_inv
    · refine ⟨hS1.ctr_count, hS1.ctr_le, hS1.run_tid_nodup, hS1.run_tid_lt, hS1.run_host,
        ?_, ?_, ?_, ?_, ?_, ?_, hS1.beg_tid_nodup, hS1.beg_tid_lt⟩
      · intro h'' p hp
        dsimp only at hp
        by_cases hh : h'' = t.host
        · subst hh
          rw [upd_same] at hp
          exact hS.buf_host t.host p (hbuf ▸ List.mem_cons_of_mem _ hp)
        · rw [upd_ne _ _ _ hh] at hp
          exact hS.buf_host h'' p hp
      · intro h''
        dsimp only
        by_cases hh : h'' = t.host
        · subst hh
          rw [upd_same]
          exact (List.pairwise_cons.mp (hbuf ▸ hS.buf_sorted t.host)).2
        · rw [upd_ne _ _ _ hh]
          exact hS.buf_sorted h''
      · intro h'' p hp
        dsimp only at hp
        by_cases hh : h'' = t.host
        · subst hh
          rw [upd_same] at hp
          exact hS.buf_seq_lt t.host p (hbuf ▸ List.mem_cons_of_mem _ hp)
        · rw [upd_ne _ _ _ hh] at hp
          exact hS.buf_seq_lt h'' p hp
      · exact hS1.begun_sorted
      · intro h'' g hg p hp
        dsimp only at hp
        by_cases hh : h'' = t.host
        · subst hh
          rw [upd_same] at hp
          exact hS1.begun_lt_buf t.host g hg p (hbuf ▸ List.mem_cons_of_mem _ hp)
        · rw [upd_ne _ _ _ hh] at hp
          exact hS1.begun_lt_buf h'' g hg p hp
      · exact hS1.begun_lt
    · intro m hm h hkey
      have hm' : m = q.seq := by
        injection hm with hm
        exact hm.symm
      subst hm'
      have hh : h = t.host := by
        rw [hqhost] at hkey
        injection hkey with hkey
        exact hkey.symm
      subst hh
      refine ⟨?_, ?_, ?_⟩
      · intro g hg
        exact hS.begun_lt_buf t.host g hg q hqmem
      · intro p hp
        dsimp only at hp
        rw [upd_same] at hp
        exact (List.pairwise_cons.mp (hbuf ▸ hS.buf_sorted t.host)).1 p hp
      · exact hS.buf_seq_lt t.host q hqmem

theorem completeTask_inv (S : St) (tid : Nat) (out : TransportOutcome) (hS : Inv S) :
    Inv (completeTask S tid out) := by
  unfold completeTask
  split
  next _ => exact hS
  next t hfind => exact finishTask_inv S t out hS (List.mem_of_find?_eq_some hfind)

theorem step_inv (S : St) (e : Ev) (hS : Inv S) : Inv (step S e) := by
  cases e with
  | call url => exact fetchWithOptimization_inv S url hS
  | complete tid out => exact completeTask_inv S tid out hS

theorem run_inv (evs : List Ev) : Inv (run evs) := by
  suffices h : ∀ S, Inv S → Inv (evs.foldl step S) from h init init_inv
  induction evs with
  | nil => exact fun S hS => hS
  | cons e es ih => exact fun S hS => ih (step S e) (step_inv S e hS)

/-! Branch equations of `submit` and `fetchWithOptimization`, and
parametricity of every step in the `futures` store (a step reads only the
non-future fields, so settlement values can never influence control flow —
the formal backbone of failure isolation). -/
theorem submit_join (S : St) (cid : Nat) (url : String) (fb : Option Nat) (f : Nat)
    (halook : alook S.inFlight url = some f) :
    submit S cid url fb = { S with callers := upd S.callers cid (some (CallerRef.fut f)) } := by
  simp only [submit, halook]

theorem submit_invalid (S : St) (cid : Nat) (url : String) (fb : Option Nat)
    (halook : alook S.inFlight url = none) (hkey : getHostKey url = none) :
    submit S cid url fb =
      { S with callers := upd S.callers cid (some (CallerRef.err (JsError.invalidUrl url))) } := by
  simp only [submit, halook, hkey]

theorem submit_buffer (S : St) (cid : Nat) (url : String) (fb : Option Nat) (h : String)
    (halook : alook S.inFlight url = none) (hkey : getHostKey url = some h)
    (hfull : MAX_CONCURRENT_REQUESTS ≤ S.ctr h) :
    submit S cid url fb =
      { S with
        buf := upd S.buf h (S.buf h ++ [⟨cid, url, S.nextSeq⟩])
        nextSeq := S.nextSeq + 1
        callers := upd S.callers cid (some CallerRef.waitBuf) } := by
  simp only [submit, halook, hkey]
  rw [if_pos hfull]

theorem submit_start (S : St) (cid : Nat) (url : String) (fb : Option Nat) (h : String)
    (halook : alook S.inFlight url = none) (hkey : getHostKey url = some h)
    (hfree : S.ctr h < MAX_CONCURRENT_REQUESTS) :
    submit S cid url fb = startTask S cid url h fb := by
  simp only [submit, halook, hkey]
  rw [if_neg (Nat.not_le_of_lt hfree)]

theorem submit_futures_param (S : St) (φ : Nat → Option (Except JsError SettledValue))
    (cid : Nat) (url : String) (fb : Option Nat) :
    submit { S with futures := φ } cid url fb = { submit S cid url fb with futures := φ } := by
  rcases halook : alook S.inFlight url with _ | f
  · rcases hkey : getHostKey url with _ | h
    · rw [submit_invalid S cid url fb halook hkey,
        submit_invalid { S with futures := φ } cid url fb halook hkey]
    · by_cases hfull : MAX_CONCURRENT_REQUESTS ≤ S.ctr h
      · rw [submit_buffer S cid url fb h halook hkey hfull,
          submit_buffer { S with futures := φ } cid url fb h halook hkey hfull]
      · rw [submit_start S cid url fb h halook hkey (Nat.lt_of_not_le hfull),
          submit_start { S with futures := φ } cid url fb h halook hkey (Nat.lt_of_not_le hfull)]
        rfl
  · rw [submit_join S cid url fb f halook,
      submit_join { S with futures := φ } cid url fb f halook]

theorem fetchWithOptimization_futures_param (S : St)
    (φ : Nat → Option (Except JsError SettledValue)) (url : String) :
    fetchWithOptimization { S with futures := φ } url =
      { fetchWithOptimization S url with futures := φ } := by
  unfold fetchWithOptimization
  dsimp only
  exact submit_futures_param { S with nextCid := S.nextCid + 1 } φ S.nextCid url none

theorem finishTask_futures_param (S : St) (φ : Nat → Option (Except JsError SettledValue))
    (t : RTask) (out : TransportOutcome) :
    finishTask { S with futures := φ } t out =
      { finishTask S t out with futures := upd φ t.tid (some (settleResult out)) } := by
  unfold finishTask
  dsimp only
  rcases hbuf : S.buf t.host with _ | ⟨q, rest⟩
  · rfl
  · have := submit_futures_param
      { settleCleanup S t out with buf := upd S.buf t.host rest }
      (upd φ t.tid (some (settleResult out))) q.cid q.url (some q.seq)
    simpa [settleCleanup] using this

theorem completeTask_futures_param (S : St) (φ : Nat → Option (Except JsError SettledValue))
    (tid : Nat) (out : TransportOutcome) :
    completeTask { S with futures := φ } tid out =
      { completeTask S tid out with futures := futTrans S (Ev.complete tid out) φ } := by
  rcases hfind : S.running.find? (fun r => r.tid = tid) with _ | t
  · simp only [completeTask, futTrans, hfind]
  · simp only [completeTask, futTrans, hfind]
    exact finishTask_futures_param S φ t out

theorem step_futures_param (S : St) (φ : Nat → Option (Except JsError SettledValue)) (e : Ev) :
    step { S with futures := φ } e = { step S e with futures := futTrans S e φ } := by
  cases e with
  | call url => exact fetchWithOptimization_futures_param S φ url
  | complete tid out => exact completeTask_futures_param S φ tid out

theorem runFrom_run (evs : List Ev) : run evs = runFrom init evs := rfl

theorem agreeExcept_eta {f : Nat} {S T : St} (h : agreeExcept f S T) :
    T = { S with futures := T.futures } := by
  obtain ⟨h1, h2, h3, h4, h5, h6, h7, h8, h9, _⟩ := h
  cases T
  dsimp only at h1 h2 h3 h4 h5 h6 h7 h8 h9 ⊢
  subst h1 h2 h3 h4 h5 h6 h7 h8 h9
  rfl

theorem step_futures (S : St) (e : Ev) :
    (step S e).futures = futTrans S e S.futures := by
  have h := step_futures_param S S.futures e
  calc (step S e).futures = (step { S with futures := S.futures } e).futures := rfl
    _ = futTrans S e S.futures := by rw [h]

theorem futTrans_agree {f : Nat} {φ ψ : Nat → Option (Except JsError SettledValue)}
    (hφψ : ∀ g, g ≠ f → φ g = ψ g) (S : St) (e : Ev) :
    ∀ g, g ≠ f → futTrans S e φ g = futTrans S e ψ g := by
  intro g hg
  cases e with
  | call url => exact hφψ g hg
  | complete tid out =>
    rcases hfind : S.running.find? (fun r => r.tid = tid) with _ | t
    · simp only [futTrans, hfind]
      exact hφψ g hg
    · simp only [futTrans, hfind]
      by_cases hgt : g = t.tid
      · subst hgt
        rw [upd_same, upd_same]
      · rw [upd_ne _ _ _ hgt, upd_ne _ _ _ hgt]
        exact hφψ g hg

theorem step_agreeExcept {f : Nat} {S T : St} (h : agreeExcept f S T) (e : Ev) :
    agreeExcept f (step S e) (step T e) := by
  have hT := agreeExcept_eta h
  have hstep : step T e = { step S e with futures := futTrans S e T.futures } := by
    rw [hT]
    exact step_futures_param S T.futures e
  rw [hstep]
  refine ⟨rfl, rfl, rfl, rfl, rfl, rfl, rfl, rfl, rfl, ?_⟩
  intro g hg
  have : (step S e).futures g = futTrans S e S.futures g := by rw [step_futures]
  rw [this]
  exact futTrans_agree (fun g' hg' => h.2.2.2.2.2.2.2.2.2 g' hg') S e g hg

theorem runFrom_agreeExcept {f : Nat} {S T : St} (h : agreeExcept f S T) (evs : List Ev) :
    agreeExcept f (runFrom S evs) (runFrom T evs) := by
  induction evs generalizing S T with
  | nil => exact h
  | cons e es ih => exact ih (step_agreeExcept h e)

theorem submit_nextTid (S : St) (cid : Nat) (url : String) (fb : Option Nat) :
    S.nextTid ≤ (submit S cid url fb).nextTid := by
  rcases halook : alook S.inFlight url with _ | f
  · rcases hkey : getHostKey url with _ | h
    · rw [submit_invalid S cid url fb halook hkey]
    · by_cases hfull : MAX_CONCURRENT_REQUESTS ≤ S.ctr h
      · rw [submit_buffer S cid url fb h halook hkey hfull]
      · rw [submit_start S cid url fb h halook hkey (Nat.lt_of_not_le hfull)]
        exact Nat.le_succ _
  · rw [submit_join S cid url fb f halook]

theorem submit_futures_unchanged (S : St) (cid : Nat) (url : String) (fb : Option Nat) :
    (submit S cid url fb).futures = S.futures := by
  have h := submit_futures_param S S.futures cid url fb
  calc (submit S cid url fb).futures
      = (submit { S with futures := S.futures } cid url fb).futures := rfl
    _ = S.futures := by rw [h]

end CounterVariant

/-- Two members of a list with equal keys are the same element when the
mapped keys are without duplicates. -/
theorem nodup_key_eq {α : Type} (key : α → Nat) {l : List α}
    (h : (l.map key).Nodup) {a b : α} (ha : a ∈ l) (hb : b ∈ l)
    (hk : key a = key b) : a = b := by
  induction l with
  | nil => cases ha
  | cons y ys ih =>
    simp only [List.map_cons, List.nodup_cons] at h
    rcases List.mem_cons.mp ha with ha1 | ha2
    · rcases List.mem_cons.mp hb with hb1 | hb2
      · rw [ha1, hb1]
      · have hmem : key y ∈ ys.map key := by
          rw [← ha1, hk]
          exact List.mem_map_of_mem key hb2
        exact absurd hmem h.1
    · rcases List.mem_cons.mp hb with hb1 | hb2
      · have hmem : key y ∈ ys.map key := by
          rw [← hb1, ← hk]
          exact List.mem_map_of_mem key ha2
        exact absurd hmem h.1
      · exact ih h.2 ha2 hb2

namespace AsyncQueueVariant

theorem aq_init_inv : Inv init := by
  constructor <;> simp [init, liveTask, alook]

theorem liveTask_congr {S T : St} (hbuf : T.buf = S.buf) (hrun : T.running = S.running) :
    ∀ t, liveTask T t ↔ liveTask S t := by
  intro t
  unfold liveTask
  rw [hbuf, hrun]

/-- Invariance is insensitive to the fields it does not mention. -/
theorem aq_Inv_frame {S T : St} (hS : Inv S)
    (hcnt : T.runCnt = S.runCnt) (hbuf : T.buf = S.buf) (hrun : T.running = S.running)
    (hinf : T.inFlight = S.inFlight) (hbeg : T.begins = S.begins)
    (hcom : T.completes = S.completes) (htid : T.nextTid = S.nextTid) : Inv T := by
  have hlive := liveTask_congr hbuf hrun
  constructor
  · intro h
    rw [hcnt, hrun]
    exact hS.cnt_count h
  · intro h
    rw [hcnt]
    exact hS.cnt_le h
  · intro h
    rw [hbuf]
    exact hS.buf_sorted h
  · intro h t ht
    rw [htid]
    exact hS.buf_tid_lt h t (hbuf ▸ ht)
  · rw [hrun]
    exact hS.run_tid_nodup
  · intro p hp
    rw [htid]
    exact hS.run_tid_lt p (hrun ▸ hp)
  · intro h t ht p hp
    exact hS.buf_run_disj h t (hbuf ▸ ht) p (hrun ▸ hp)
  · intro h1 h2 t1 ht1 t2 ht2
    exact hS.buf_cross h1 h2 t1 (hbuf ▸ ht1) t2 (hbuf ▸ ht2)
  · intro h t ht
    exact hS.buf_host h t (hbuf ▸ ht)
  · intro p hp
    exact hS.run_host p (hrun ▸ hp)
  · intro u f hf
    rcases hS.reg_live u f (hinf ▸ hf) with ⟨t, ht, hu, htid'⟩
    exact ⟨t, (hlive t).mpr ht, hu, htid'⟩
  · intro t ht
    rw [hinf]
    exact hS.live_reg t ((hlive t).mp ht)
  · intro t1 t2 h1 h2 hu
    exact hS.live_url t1 t2 ((hlive t1).mp h1) ((hlive t2).mp h2) hu
  · rw [hinf]
    exact hS.inflight_nodup
  · intro h
    rw [hbeg]
    exact hS.begun_sorted h
  · intro h b hb hh t ht
    exact hS.begun_lt_buf h b (hbeg ▸ hb) hh t (hbuf ▸ ht)
  · rw [hbeg]
    exact hS.beg_tid_nodup
  · intro b hb
    rw [htid]
    exact hS.beg_tid_lt b (hbeg ▸ hb)
  · intro h t ht b hb
    exact hS.buf_not_begun h t (hbuf ▸ ht) b (hbeg ▸ hb)
  · intro p hp
    rcases hS.run_begun p (hrun ▸ hp) with ⟨b, hb, hbe⟩
    exact ⟨b, hbeg ▸ hb, hbe⟩
  · intro k hk
    rcases hS.completed_begun k (hcom ▸ hk) with ⟨b, hb, hbe⟩
    exact ⟨b, hbeg ▸ hb, hbe⟩

/-! Branch equations of the three steps. -/
theorem fetch_join (S : St) (url : String) (o : RequestOptions) (f : Nat)
    (halook : alook S.inFlight url = some f) :
    fetchWithOptimization S url o =
      { S with
        callers := upd S.callers S.nextCid (some (CallerRef.fut f))
        callerOpts := upd S.callerOpts S.nextCid (some (normalizeBody o))
        nextCid := S.nextCid + 1 } := by
  simp only [fetchWithOptimization, halook]

theorem fetch_invalid (S : St) (url : String) (o : RequestOptions)
    (halook : alook S.inFlight url = none) (hkey : getHostKey url = none) :
    fetchWithOptimization S url o =
      { S with
        callers := upd S.callers S.nextCid (some (CallerRef.err (JsError.invalidUrl url)))
        callerOpts := upd S.callerOpts S.nextCid (some (normalizeBody o))
        nextCid := S.nextCid + 1 } := by
  simp only [fetchWithOptimization, halook, hkey]

theorem fetch_push (S : St) (url : String) (o : RequestOptions) (h : String)
    (halook : alook S.inFlight url = none) (hkey : getHostKey url = some h) :
    fetchWithOptimization S url o =
      { S with
        hasQueue := if h ∈ S.hasQueue then S.hasQueue else h :: S.hasQueue
        buf := upd S.buf h (S.buf h ++ [⟨S.nextTid, url, normalizeBody o⟩])
        inFlight := (url, S.nextTid) :: S.inFlight
        callers := upd S.callers S.nextCid (some (CallerRef.fut S.nextTid))
        callerOpts := upd S.callerOpts S.nextCid (some (normalizeBody o))
        tasksLog := S.tasksLog ++ [(S.nextTid, url)]
        nextCid := S.nextCid + 1
        nextTid := S.nextTid + 1 } := by
  simp only [fetchWithOptimization, halook, hkey]
  by_cases hq : h ∈ S.hasQueue <;> simp [hq]

theorem dispatch_nil (stamp : Bool) (S : St) (h : String) (ts : String)
    (hbuf : S.buf h = []) : dispatch stamp S h ts = S := by
  simp only [dispatch, hbuf]

theorem dispatch_full (stamp : Bool) (S : St) (h : String) (ts : String)
    (t : Task) (rest : List Task) (hbuf : S.buf h = t :: rest)
    (hfull : ¬ S.runCnt h < MAX_CONCURRENT_REQUESTS) : dispatch stamp S h ts = S := by
  simp only [dispatch, hbuf, if_neg hfull]

theorem dispatch_go (stamp : Bool) (S : St) (h : String) (ts : String)
    (t : Task) (rest : List Task) (hbuf : S.buf h = t :: rest)
    (hfree : S.runCnt h < MAX_CONCURRENT_REQUESTS) :
    dispatch stamp S h ts =
      { S with
        buf := upd S.buf h rest
        runCnt := upd S.runCnt h (S.runCnt h + 1)
        running :=
          ({ t with opts := { t.opts with
            headers := if stamp then objSet t.opts.headers "x-callstart" ts
              else t.opts.headers } }, h) :: S.running
        begins := S.begins ++ [⟨t.tid, t.url, h,
          if stamp then objSet t.opts.headers "x-callstart" ts else t.opts.headers⟩] } := by
  simp only [dispatch, hbuf, if_pos hfree]

theorem complete_none (S : St) (tid : Nat) (out : TransportOutcome)
    (hfind : S.running.find? (fun p => p.1.tid = tid) = none) :
    completeTask S tid out = S := by
  simp only [completeTask, hfind]

theorem complete_go (S : St) (tid : Nat) (out : TransportOutcome)
    (t : Task) (h : String)
    (hfind : S.running.find? (fun p => p.1.tid = tid) = some (t, h)) :
    completeTask S tid out =
      { S with
        futures := upd S.futures t.tid (some (settleResult out))
        inFlight := S.inFlight.filter (fun p => p.1 ≠ t.url)
        runCnt := upd S.runCnt h (S.runCnt h - 1)
        running := S.running.filter (fun p => p.1.tid ≠ tid)
        completes := S.completes ++ [tid] } := by
  simp only [completeTask, hfind]

end AsyncQueueVariant

theorem mem_upd {α β : Type} [DecidableEq α] (f : α → List β) (k : α) (l : List β)
    (q : α) (x : β) :
    x ∈ upd f k l q ↔ (q = k ∧ x ∈ l) ∨ (q ≠ k ∧ x ∈ f q) := by
  unfold upd
  by_cases hq : q = k <;> simp [hq]

namespace AsyncQueueVariant

theorem aq_fetchWithOptimization_inv (S : St) (url : String) (o : RequestOptions)
    (hS : Inv S) : Inv (fetchWithOptimization S url o) := by
  rcases halook : alook S.inFlight url with _ | f
  · rcases hkey : getHostKey url with _ | h
    · rw [fetch_invalid S url o halook hkey]
      exact aq_Inv_frame hS rfl rfl rfl rfl rfl rfl rfl
    · rw [fetch_push S url o h halook hkey]
      have hno_live : ∀ t, liveTask S t → t.url ≠ url := by
        intro t ht hc
        have := hS.live_reg t ht
        rw [hc, halook] at this
        cases this
      have hkeys : ∀ p ∈ S.inFlight, p.1 ≠ url := alook_eq_none.mp halook
      constructor
      all_goals dsimp only
      · exact hS.cnt_count
      · exact hS.cnt_le
      · intro h1
        by_cases hh : h1 = h
        · subst hh
          rw [upd_same]
          apply List.pairwise_append.mpr
          refine ⟨hS.buf_sorted h1, by simp, ?_⟩
          intro a ha b hb
          rw [List.mem_singleton] at hb
          subst hb
          exact hS.buf_tid_lt h1 a ha
        · rw [upd_ne _ _ _ hh]
          exact hS.buf_sorted h1
      · intro h1 t ht
        rcases (mem_upd _ _ _ _ _).mp ht with ⟨hh, ht⟩ | ⟨hh, ht⟩
        · rcases List.mem_append.mp ht with ht | ht
          · exact Nat.lt_succ_of_lt (hS.buf_tid_lt h t ht)
          · rw [List.mem_singleton] at ht
            subst ht
            exact Nat.lt_succ_self _
        · exact Nat.lt_succ_of_lt (hS.buf_tid_lt h1 t ht)
      · exact hS.run_tid_nodup
      · intro p hp
        exact Nat.lt_succ_of_lt (hS.run_tid_lt p hp)
      · intro h1 t ht p hp
        rcases (mem_upd _ _ _ _ _).mp ht with ⟨hh, ht⟩ | ⟨hh, ht⟩
        · rcases List.mem_append.mp ht with ht | ht
          · exact hS.buf_run_disj h t ht p hp
          · rw [List.mem_singleton] at ht
            subst ht
            exact (Nat.ne_of_lt (hS.run_tid_lt p hp)).symm
        · exact hS.buf_run_disj h1 t ht p hp
      · intro h1 h2 t1 ht1 t2 ht2 htid
        have hcase : ∀ h' t', t' ∈ upd S.buf h (S.buf h ++
            [⟨S.nextTid, url, normalizeBody o⟩]) h' →
            t' ∈ S.buf h' ∨ (h' = h ∧ t' = ⟨S.nextTid, url, normalizeBody o⟩) := by
          intro h' t' ht'
          rcases (mem_upd _ _ _ _ _).mp ht' with ⟨hh, ht'⟩ | ⟨hh, ht'⟩
          · rcases List.mem_append.mp ht' with ht' | ht'
            · subst hh
              exact Or.inl ht'
            · rw [List.mem_singleton] at ht'
              exact Or.inr ⟨hh, ht'⟩
          · exact Or.inl ht'
        rcases hcase h1 t1 ht1 with ht1' | ⟨hh1, he1⟩
        · rcases hcase h2 t2 ht2 with ht2' | ⟨hh2, he2⟩
          · exact hS.buf_cross h1 h2 t1 ht1' t2 ht2' htid
          · subst he2
            exact absurd htid (Nat.ne_of_lt (hS.buf_tid_lt h1 t1 ht1'))
        · rcases hcase h2 t2 ht2 with ht2' | ⟨hh2, he2⟩
          · subst he1
            exact absurd htid.symm (Nat.ne_of_lt (hS.buf_tid_lt h2 t2 ht2'))
          · rw [hh1, hh2]
      · intro h1 t ht
        rcases (mem_upd _ _ _ _ _).mp ht with ⟨hh, ht⟩ | ⟨hh, ht⟩
        · rcases List.mem_append.mp ht with ht | ht
          · subst hh
            exact hS.buf_host h1 t ht
          · rw [List.mem_singleton] at ht
            subst ht
            subst hh
            exact hkey
        · exact hS.buf_host h1 t ht
      · exact hS.run_host
      · intro u f hf
        rw [alook_cons] at hf
        by_cases hu : url = u
        · rw [if_pos hu] at hf
          injection hf with hf
          subst hu
          refine ⟨⟨S.nextTid, url, normalizeBody o⟩, Or.inl ⟨h, ?_⟩, rfl, hf⟩
          dsimp only
          rw [upd_same]
          exact List.mem_append.mpr (Or.inr (List.mem_singleton.mpr rfl))
        · rw [if_neg hu] at hf
          rcases hS.reg_live u f hf with ⟨t, ht, hturl, httid⟩
          refine ⟨t, ?_, hturl, httid⟩
          rcases ht with ⟨h1, ht⟩ | hrun
          · refine Or.inl ⟨h1, ?_⟩
            dsimp only
            by_cases hh : h1 = h
            · subst hh
              rw [upd_same]
              exact List.mem_append.mpr (Or.inl ht)
            · rw [upd_ne _ _ _ hh]
              exact ht
          · exact Or.inr hrun
      · intro t ht
        rcases ht with ⟨h1, ht⟩ | hrun
        · rcases (mem_upd _ _ _ _ _).mp ht with ⟨hh, ht⟩ | ⟨hh, ht⟩
          · rcases List.mem_append.mp ht with ht | ht
            · have hlive : liveTask S t := Or.inl ⟨h, ht⟩
              rw [alook_cons, if_neg (fun hc => hno_live t hlive hc.symm)]
              exact hS.live_reg t hlive
            · rw [List.mem_singleton] at ht
              subst ht
              rw [alook_cons, if_pos rfl]
          · have hlive : liveTask S t := Or.inl ⟨h1, ht⟩
            rw [alook_cons, if_neg (fun hc => hno_live t hlive hc.symm)]
            exact hS.live_reg t hlive
        · have hlive : liveTask S t := Or.inr hrun
          rw [alook_cons, if_neg (fun hc => hno_live t hlive hc.symm)]
          exact hS.live_reg t hlive
      · intro t1 t2 h1 h2 hu
        have hcase : ∀ t', liveTask
            { S with
              hasQueue := if h ∈ S.hasQueue then S.hasQueue else h :: S.hasQueue
              buf := upd S.buf h (S.buf h ++ [⟨S.nextTid, url, normalizeBody o⟩])
              inFlight := (url, S.nextTid) :: S.inFlight
              callers := upd S.callers S.nextCid (some (CallerRef.fut S.nextTid))
              callerOpts := upd S.callerOpts S.nextCid (some (normalizeBody o))
              tasksLog := S.tasksLog ++ [(S.nextTid, url)]
              nextCid := S.nextCid + 1
              nextTid := S.nextTid + 1 } t' →
            liveTask S t' ∨ t' = ⟨S.nextTid, url, normalizeBody o⟩ := by
          intro t' ht'
          rcases ht' with ⟨h', ht'⟩ | hrun
          · dsimp only at ht'
            rcases (mem_upd _ _ _ _ _).mp ht' with ⟨hh, ht'⟩ | ⟨hh, ht'⟩
            · rcases List.mem_append.mp ht' with ht' | ht'
              · exact Or.inl (Or.inl ⟨h, ht'⟩)
              · rw [List.mem_singleton] at ht'
                exact Or.inr ht'
            · exact Or.inl (Or.inl ⟨h', ht'⟩)
          · exact Or.inl (Or.inr hrun)
        rcases hcase t1 h1 with hl1 | he1
        · rcases hcase t2 h2 with hl2 | he2
          · exact hS.live_url t1 t2 hl1 hl2 hu
          · exfalso
            apply hno_live t1 hl1
            rw [hu, he2]
        · rcases hcase t2 h2 with hl2 | he2
          · exfalso
            apply hno_live t2 hl2
            rw [← hu, he1]
          · rw [he1, he2]
      · rw [List.map_cons]
        apply List.nodup_cons.mpr
        refine ⟨?_, hS.inflight_nodup⟩
        intro hc
        rcases List.mem_map.mp hc with ⟨p, hp, hpe⟩
        exact hkeys p hp hpe
      · exact hS.begun_sorted
      · intro h1 b hb hh t ht
        rcases (mem_upd _ _ _ _ _).mp ht with ⟨hh1, ht⟩ | ⟨hh1, ht⟩
        · rcases List.mem_append.mp ht with ht | ht
          · subst hh1
            exact hS.begun_lt_buf h1 b hb hh t ht
          · rw [List.mem_singleton] at ht
            subst ht
            exact hS.beg_tid_lt b hb
        · exact hS.begun_lt_buf h1 b hb hh t ht
      · exact hS.beg_tid_nodup
      · intro b hb
        exact Nat.lt_succ_of_lt (hS.beg_tid_lt b hb)
      · intro h1 t ht b hb
        rcases (mem_upd _ _ _ _ _).mp ht with ⟨hh1, ht⟩ | ⟨hh1, ht⟩
        · rcases List.mem_append.mp ht with ht | ht
          · exact hS.buf_not_begun h t ht b hb
          · rw [List.mem_singleton] at ht
            subst ht
            exact Nat.ne_of_lt (hS.beg_tid_lt b hb)
        · exact hS.buf_not_begun h1 t ht b hb
      · exact hS.run_begun
      · exact hS.completed_begun
  · rw [fetch_join S url o f halook]
    exact aq_Inv_frame hS rfl rfl rfl rfl rfl rfl rfl

theorem dispatch_inv (stamp : Bool) (S : St) (h : String) (ts : String) (hS : Inv S) :
    Inv (dispatch stamp S h ts) := by
  rcases hbuf : S.buf h with _ | ⟨t, rest⟩
  · rw [dispatch_nil stamp S h ts hbuf]
    exact hS
  · by_cases hfree : S.runCnt h < MAX_CONCURRENT_REQUESTS
    · rw [dispatch_go stamp S h ts t rest hbuf hfree]
      have ht : t ∈ S.buf h := by
        rw [hbuf]
        exact List.mem_cons_self _ _
      have hrest : ∀ x ∈ rest, t.tid < x.tid := by
        intro x hx
        exact (List.pairwise_cons.mp (hbuf ▸ hS.buf_sorted h)).1 x hx
      have hrestmem : ∀ x ∈ rest, x ∈ S.buf h := by
        intro x hx
        rw [hbuf]
        exact List.mem_cons_of_mem _ hx
      have hbufsub : ∀ g x, x ∈ upd S.buf h rest g → x ∈ S.buf g := by
        intro g x hx
        by_cases hg : g = h
        · rw [hg, upd_same] at hx
          rw [hg]
          exact hrestmem x hx
        · rw [upd_ne _ _ _ hg] at hx
          exact hx
      constructor
      all_goals dsimp only
      · intro g
        by_cases hg : g = h
        · rw [hg, upd_same, List.filter_cons]
          simp [hS.cnt_count h]
        · rw [upd_ne _ _ _ hg, List.filter_cons]
          have hne : ¬ (h = g) := fun hc => hg hc.symm
          simp [hne, hS.cnt_count g]
      · intro g
        by_cases hg : g = h
        · rw [hg, upd_same]
          exact hfree
        · rw [upd_ne _ _ _ hg]
          exact hS.cnt_le g
      · intro g
        by_cases hg : g = h
        · rw [hg, upd_same]
          exact (List.pairwise_cons.mp (hbuf ▸ hS.buf_sorted h)).2
        · rw [upd_ne _ _ _ hg]
          exact hS.buf_sorted g
      · intro g x hx
        exact hS.buf_tid_lt g x (hbufsub g x hx)
      · rw [List.map_cons]
        apply List.nodup_cons.mpr
        refine ⟨?_, hS.run_tid_nodup⟩
        intro hc
        rcases List.mem_map.mp hc with ⟨p, hp, hpe⟩
        exact hS.buf_run_disj h t ht p hp hpe.symm
      · intro p hp
        rcases List.mem_cons.mp hp with rfl | hp
        · exact hS.buf_tid_lt h t ht
        · exact hS.run_tid_lt p hp
      · intro g x hx p hp
        rcases List.mem_cons.mp hp with rfl | hp
        · show x.tid ≠ t.tid
          by_cases hg : g = h
          · rw [hg, upd_same] at hx
            exact (Nat.ne_of_lt (hrest x hx)).symm
          · rw [upd_ne _ _ _ hg] at hx
            intro hc
            exact hg (hS.buf_cross g h x hx t ht hc)
        · exact hS.buf_run_disj g x (hbufsub g x hx) p hp
      · intro g1 g2 x1 hx1 x2 hx2 htid
        exact hS.buf_cross g1 g2 x1 (hbufsub g1 x1 hx1) x2 (hbufsub g2 x2 hx2) htid
      · intro g x hx
        exact hS.buf_host g x (hbufsub g x hx)
      · intro p hp
        rcases List.mem_cons.mp hp with rfl | hp
        · exact hS.buf_host h t ht
        · exact hS.run_host p hp
      · intro u f hf
        rcases hS.reg_live u f hf with ⟨y, hy, hyu, hyt⟩
        rcases hy with ⟨g, hy⟩ | ⟨g, hy⟩
        · by_cases hg : g = h
          · rw [hg, hbuf] at hy
            rcases List.mem_cons.mp hy with rfl | hy
            · exact ⟨{ y with opts := { y.opts with
                headers := if stamp then objSet y.opts.headers "x-callstart" ts
                  else y.opts.headers } },
                Or.inr ⟨h, List.mem_cons_self _ _⟩, hyu, hyt⟩
            · exact ⟨y, Or.inl ⟨h, by
                dsimp only
                rw [upd_same]
                exact hy⟩, hyu, hyt⟩
          · exact ⟨y, Or.inl ⟨g, by
              dsimp only
              rw [upd_ne _ _ _ hg]
              exact hy⟩, hyu, hyt⟩
        · exact ⟨y, Or.inr ⟨g, List.mem_cons_of_mem _ hy⟩, hyu, hyt⟩
      · intro x hx
        rcases hx with ⟨g, hx⟩ | ⟨g, hx⟩
        · exact hS.live_reg x (Or.inl ⟨g, hbufsub g x hx⟩)
        · rcases List.mem_cons.mp hx with heq | hx
          · have hx1 : x = { t with opts := { t.opts with
              headers := if stamp then objSet t.opts.headers "x-callstart" ts
                else t.opts.headers } } := congrArg Prod.fst heq
            rw [hx1]
            exact hS.live_reg t (Or.inl ⟨h, ht⟩)
          · exact hS.live_reg x (Or.inr ⟨g, hx⟩)
      · intro x1 x2 hx1 hx2 hu
        have hmapped : ∀ x, liveTask (dispatch stamp S h ts) x →
            ∃ y, liveTask S y ∧ y.url = x.url ∧ y.tid = x.tid := by
          intro x hx
          rw [dispatch_go stamp S h ts t rest hbuf hfree] at hx
          rcases hx with ⟨g, hx⟩ | ⟨g, hx⟩
          · exact ⟨x, Or.inl ⟨g, hbufsub g x hx⟩, rfl, rfl⟩
          · rcases List.mem_cons.mp hx with heq | hx
            · have hx1 : x = { t with opts := { t.opts with
                headers := if stamp then objSet t.opts.headers "x-callstart" ts
                  else t.opts.headers } } := congrArg Prod.fst heq
              refine ⟨t, Or.inl ⟨h, ht⟩, ?_, ?_⟩ <;> rw [hx1]
            · exact ⟨x, Or.inr ⟨g, hx⟩, rfl, rfl⟩
        have hx1' := hmapped x1 (by
          rw [dispatch_go stamp S h ts t rest hbuf hfree]
          exact hx1)
        have hx2' := hmapped x2 (by
          rw [dispatch_go stamp S h ts t rest hbuf hfree]
          exact hx2)
        rcases hx1' with ⟨y1, hy1, hyu1, hyt1⟩
        rcases hx2' with ⟨y2, hy2, hyu2, hyt2⟩
        rw [← hyt1, ← hyt2]
        apply hS.live_url y1 y2 hy1 hy2
        rw [hyu1, hyu2, hu]
      · exact hS.inflight_nodup
      · intro g
        rw [List.filter_append, List.map_append]
        by_cases hg : h = g
        · subst hg
          have hfil : List.filter (fun b => decide (b.host = h))
              [(⟨t.tid, t.url, h, if stamp then objSet t.opts.headers "x-callstart" ts
                else t.opts.headers⟩ : BeginEv)] =
              [⟨t.tid, t.url, h, if stamp then objSet t.opts.headers "x-callstart" ts
                else t.opts.headers⟩] := by
            simp
          rw [hfil]
          apply List.pairwise_append.mpr
          refine ⟨hS.begun_sorted h, by simp, ?_⟩
          intro a ha b hb
          simp only [List.map_cons, List.map_nil, List.mem_singleton] at hb
          subst hb
          rcases List.mem_map.mp ha with ⟨b1, hb1, hbe⟩
          subst hbe
          exact hS.begun_lt_buf h b1 (List.mem_of_mem_filter hb1)
            (by simpa using List.of_mem_filter hb1) t ht
        · have hfil : List.filter (fun b => decide (b.host = g))
              [(⟨t.tid, t.url, h, if stamp then objSet t.opts.headers "x-callstart" ts
                else t.opts.headers⟩ : BeginEv)] = [] := by
            simp [hg]
          rw [hfil]
          simp only [List.map_nil, List.append_nil]
          exact hS.begun_sorted g
      · intro g b hb hh1 x hx
        rcases List.mem_append.mp hb with hb | hb
        · exact hS.begun_lt_buf g b hb hh1 x (hbufsub g x hx)
        · rw [List.mem_singleton] at hb
          subst hb
          dsimp only at hh1
          subst hh1
          show t.tid < x.tid
          rw [upd_same] at hx
          exact hrest x hx
      · rw [List.map_append, List.nodup_append]
        refine ⟨hS.beg_tid_nodup, by simp, ?_⟩
        intro a ha
        rcases List.mem_map.mp ha with ⟨b, hb, hbe⟩
        subst hbe
        simp only [List.map_cons, List.map_nil, List.mem_singleton]
        exact hS.buf_not_begun h t ht b hb
      · intro b hb
        rcases List.mem_append.mp hb with hb | hb
        · exact hS.beg_tid_lt b hb
        · rw [List.mem_singleton] at hb
          subst hb
          exact hS.buf_tid_lt h t ht
      · intro g x hx b hb
        rcases List.mem_append.mp hb with hb | hb
        · exact hS.buf_not_begun g x (hbufsub g x hx) b hb
        · rw [List.mem_singleton] at hb
          subst hb
          show t.tid ≠ x.tid
          by_cases hg : g = h
          · rw [hg, upd_same] at hx
            exact Nat.ne_of_lt (hrest x hx)
          · rw [upd_ne _ _ _ hg] at hx
            intro hc
            exact hg (hS.buf_cross g h x hx t ht hc.symm)
      · intro p hp
        rcases List.mem_cons.mp hp with rfl | hp
        · exact ⟨_, List.mem_append.mpr (Or.inr (List.mem_singleton.mpr rfl)), rfl⟩
        · rcases hS.run_begun p hp with ⟨b, hb, hbe⟩
          exact ⟨b, List.mem_append.mpr (Or.inl hb), hbe⟩
      · intro k hk
        rcases hS.completed_begun k hk with ⟨b, hb, hbe⟩
        exact ⟨b, List.mem_append.mpr (Or.inl hb), hbe⟩
    · rw [dispatch_full stamp S h ts t rest hbuf hfree]
      exact hS

theorem aq_completeTask_inv (S : St) (tid : Nat) (out : TransportOutcome) (hS : Inv S) :
    Inv (completeTask S tid out) := by
  rcases hfind : S.running.find? (fun p => p.1.tid = tid) with _ | ⟨t, h⟩
  · rw [complete_none S tid out hfind]
    exact hS
  · rw [complete_go S tid out t h hfind]
    have htmem : (t, h) ∈ S.running := List.mem_of_find?_eq_some hfind
    have htid : t.tid = tid := by simpa using List.find?_some hfind
    subst htid
    have hrunsub : ∀ p, p ∈ S.running.filter (fun p => p.1.tid ≠ t.tid) → p ∈ S.running :=
      fun p hp => List.mem_of_mem_filter hp
    have hrun_ne : ∀ p, p ∈ S.running.filter (fun p => p.1.tid ≠ t.tid) →
        p.1.tid ≠ t.tid := by
      intro p hp
      simpa using List.of_mem_filter hp
    have hliveT : ∀ x, liveTask
        { S with
          futures := upd S.futures t.tid (some (settleResult out))
          inFlight := S.inFlight.filter (fun p => p.1 ≠ t.url)
          runCnt := upd S.runCnt h (S.runCnt h - 1)
          running := S.running.filter (fun p => p.1.tid ≠ t.tid)
          completes := S.completes ++ [t.tid] } x →
        liveTask S x ∧ x.tid ≠ t.tid := by
      intro x hx
      rcases hx with ⟨g, hx⟩ | ⟨g, hx⟩
      · exact ⟨Or.inl ⟨g, hx⟩, hS.buf_run_disj g x hx (t, h) htmem⟩
      · have hx1 := hrunsub (x, g) hx
        exact ⟨Or.inr ⟨g, hx1⟩, hrun_ne (x, g) hx⟩
    constructor
    all_goals dsimp only
    · intro g
      by_cases hg : g = h
      · rw [hg, upd_same]
        have hrem := length_filter_remove (fun p => p.1.tid) (fun p => decide (p.2 = h))
          S.running (t, h) htmem hS.run_tid_nodup
        dsimp only at hrem
        rw [hrem, hS.cnt_count h]
        simp
      · rw [upd_ne _ _ _ hg]
        have hrem := length_filter_remove (fun p => p.1.tid) (fun p => decide (p.2 = g))
          S.running (t, h) htmem hS.run_tid_nodup
        dsimp only at hrem
        rw [hrem, hS.cnt_count g]
        have hne : ¬ (h = g) := fun hc => hg hc.symm
        simp [hne]
    · intro g
      by_cases hg : g = h
      · rw [hg, upd_same]
        exact Nat.le_trans (Nat.sub_le _ _) (hS.cnt_le h)
      · rw [upd_ne _ _ _ hg]
        exact hS.cnt_le g
    · exact hS.buf_sorted
    · exact hS.buf_tid_lt
    · exact hS.run_tid_nodup.sublist ((List.filter_sublist _).map _)
    · intro p hp
      exact hS.run_tid_lt p (hrunsub p hp)
    · intro g x hx p hp
      exact hS.buf_run_disj g x hx p (hrunsub p hp)
    · exact hS.buf_cross
    · exact hS.buf_host
    · intro p hp
      exact hS.run_host p (hrunsub p hp)
    · intro u f hf
      by_cases hu : u = t.url
      · rw [hu] at hf
        rw [alook_filter_self] at hf
        cases hf
      · rw [alook_filter_ne hu] at hf
        rcases hS.reg_live u f hf with ⟨y, hy, hyu, hyt⟩
        refine ⟨y, ?_, hyu, hyt⟩
        rcases hy with ⟨g, hy⟩ | ⟨g, hy⟩
        · exact Or.inl ⟨g, hy⟩
        · refine Or.inr ⟨g, List.mem_filter.mpr ⟨hy, ?_⟩⟩
          simp only [decide_eq_true_eq]
          intro hc
          have : (y, g) = (t, h) := nodup_key_eq (fun p => p.1.tid) hS.run_tid_nodup hy htmem hc
          have hyt2 : y = t := congrArg Prod.fst this
          apply hu
          rw [← hyu, hyt2]
    · intro x hx
      rcases hliveT x hx with ⟨hlive, hne⟩
      have hxurl : x.url ≠ t.url := by
        intro hc
        exact hne (hS.live_url x t hlive (Or.inr ⟨h, htmem⟩) hc)
      rw [alook_filter_ne hxurl]
      exact hS.live_reg x hlive
    · intro x1 x2 hx1 hx2 hu
      exact hS.live_url x1 x2 (hliveT x1 hx1).1 (hliveT x2 hx2).1 hu
    · exact hS.inflight_nodup.sublist ((List.filter_sublist _).map _)
    · exact hS.begun_sorted
    · exact hS.begun_lt_buf
    · exact hS.beg_tid_nodup
    · exact hS.beg_tid_lt
    · exact hS.buf_not_begun
    · intro p hp
      exact hS.run_begun p (hrunsub p hp)
    · intro k hk
      rcases List.mem_append.mp hk with hk | hk
      · exact hS.completed_begun k hk
      · rw [List.mem_singleton] at hk
        subst hk
        exact hS.run_begun (t, h) htmem

theorem aq_step_inv (stamp : Bool) (S : St) (e : Ev) (hS : Inv S) : Inv (step stamp S e) := by
  cases e with
  | call url o => exact aq_fetchWithOptimization_inv S url o hS
  | dispatch h ts => exact dispatch_inv stamp S h ts hS
  | complete tid out => exact aq_completeTask_inv S tid out hS

theorem aq_run_inv (stamp : Bool) (evs : List Ev) : Inv (run stamp evs) := by
  suffices h : ∀ S, Inv S → Inv (evs.foldl (step stamp) S) from h init aq_init_inv
  induction evs with
  | nil => exact fun S hS => hS
  | cons e es ih => exact fun S hS => ih (step stamp S e) (aq_step_inv stamp S e hS)

theorem aq_step_futures_param (stamp : Bool) (S : St)
    (φ : Nat → Option (Except JsError String)) (e : Ev) :
    step stamp { S with futures := φ } e = { step stamp S e with futures := futTrans S e φ } := by
  cases e with
  | call url o =>
    simp only [step]
    rcases halook : alook S.inFlight url with _ | f
    · rcases hkey : getHostKey url with _ | h
      · rw [fetch_invalid S url o halook hkey,
          fetch_invalid { S with futures := φ } url o halook hkey]
        rfl
      · rw [fetch_push S url o h halook hkey,
          fetch_push { S with futures := φ } url o h halook hkey]
        rfl
    · rw [fetch_join S url o f halook,
        fetch_join { S with futures := φ } url o f halook]
      rfl
  | dispatch h ts =>
    simp only [step]
    rcases hbuf : S.buf h with _ | ⟨t, rest⟩
    · rw [dispatch_nil stamp S h ts hbuf,
        dispatch_nil stamp { S with futures := φ } h ts hbuf]
      rfl
    · by_cases hfree : S.runCnt h < MAX_CONCURRENT_REQUESTS
      · rw [dispatch_go stamp S h ts t rest hbuf hfree,
          dispatch_go stamp { S with futures := φ } h ts t rest hbuf hfree]
        rfl
      · rw [dispatch_full stamp S h ts t rest hbuf hfree,
          dispatch_full stamp { S with futures := φ } h ts t rest hbuf hfree]
        rfl
  | complete tid out =>
    simp only [step]
    rcases hfind : S.running.find? (fun p => p.1.tid = tid) with _ | ⟨t, h⟩
    · rw [complete_none S tid out hfind,
        complete_none { S with futures := φ } tid out hfind]
      simp only [futTrans, hfind]
    · rw [complete_go S tid out t h hfind,
        complete_go { S with futures := φ } tid out t h hfind]
      simp only [futTrans, hfind]

theorem aq_step_futures (stamp : Bool) (S : St) (e : Ev) :
    (step stamp S e).futures = futTrans S e S.futures := by
  have h := aq_step_futures_param stamp S S.futures e
  calc (step stamp S e).futures
      = (step stamp { S with futures := S.futures } e).futures := rfl
    _ = futTrans S e S.futures := by rw [h]

theorem aq_agreeExcept_eta {f : Nat} {S T : St} (h : agreeExcept f S T) :
    T = { S with futures := T.futures } := by
  obtain ⟨h1, h2, h3, h4, h5, h6, h7, h8, h9, h10, h11, h12, _⟩ := h
  cases T
  dsimp only at h1 h2 h3 h4 h5 h6 h7 h8 h9 h10 h11 h12 ⊢
  subst h1 h2 h3 h4 h5 h6 h7 h8 h9 h10 h11 h12
  rfl

theorem aq_futTrans_agree {f : Nat} {φ ψ : Nat → Option (Except JsError String)}
    (hφψ : ∀ g, g ≠ f → φ g = ψ g) (S : St) (e : Ev) :
    ∀ g, g ≠ f → futTrans S e φ g = futTrans S e ψ g := by
  intro g hg
  cases e with
  | call url o => exact hφψ g hg
  | dispatch h ts => exact hφψ g hg
  | complete tid out =>
    rcases hfind : S.running.find? (fun p => p.1.tid = tid) with _ | ⟨t, h⟩
    · simp only [futTrans, hfind]
      exact hφψ g hg
    · simp only [futTrans, hfind]
      by_cases hgt : g = t.tid
      · subst hgt
        rw [upd_same, upd_same]
      · rw [upd_ne _ _ _ hgt, upd_ne _ _ _ hgt]
        exact hφψ g hg

theorem aq_step_agreeExcept {stamp : Bool} {f : Nat} {S T : St}
    (h : agreeExcept f S T) (e : Ev) :
    agreeExcept f (step stamp S e) (step stamp T e) := by
  have hT := aq_agreeExcept_eta h
  have hstep : step stamp T e = { step stamp S e with futures := futTrans S e T.futures } := by
    rw [hT]
    exact aq_step_futures_param stamp S T.futures e
  rw [hstep]
  refine ⟨rfl, rfl, rfl, rfl, rfl, rfl, rfl, rfl, rfl, rfl, rfl, rfl, ?_⟩
  intro g hg
  have hsf : (step stamp S e).futures g = futTrans S e S.futures g := by
    rw [aq_step_futures]
  rw [hsf]
  exact aq_futTrans_agree (fun g' hg' => h.2.2.2.2.2.2.2.2.2.2.2.2 g' hg') S e g hg

theorem aq_runFrom_agreeExcept {stamp : Bool} {f : Nat} {S T : St}
    (h : agreeExcept f S T) (evs : List Ev) :
    agreeExcept f (runFrom stamp S evs) (runFrom stamp T evs) := by
  induction evs generalizing S T with
  | nil => exact h
  | cons e es ih => exact ih (aq_step_agreeExcept h e)

end AsyncQueueVariant

/-! ## Host-key characterization -/
theorem no_colon_takeWhile_lc (l : List Char) :
    ':' ∉ (l.takeWhile (fun c => decide (c ≠ ':'))).map lcChar := by
  intro hc
  rcases List.mem_map.mp hc with ⟨c0, hc0, he⟩
  have h1 := List.mem_takeWhile_imp hc0
  simp only [decide_eq_true_eq] at h1
  exact h1 (lcChar_eq_colon he)

theorem no_colon_stripZeros {pd : List Char} (hall : pd.all Char.isDigit = true) :
    ':' ∉ stripZeros pd := by
  intro hc
  unfold stripZeros at hc
  rcases hdrop : pd.dropWhile (fun c => c = '0') with _ | ⟨c, l⟩
  · rw [hdrop] at hc
    rw [List.mem_singleton] at hc
    cases hc
  · rw [hdrop] at hc
    have hsub : ':' ∈ pd := by
      have hsl := List.dropWhile_sublist (l := pd) (p := fun c => decide (c = '0'))
      rw [hdrop] at hsl
      exact hsl.subset hc
    have := List.all_eq_true.mp hall ':' hsub
    cases this

theorem parse_shape {cs : List Char} {p : UrlParts} (h : parseUrlL cs = some p) :
    ':' ∉ p.host ∧ ∀ d, p.port = some d → ':' ∉ d := by
  unfold parseUrlL at h
  split at h
  · dsimp only at h
    split at h
    · exact absurd h (by simp)
    · split at h
      · exact absurd h (by simp)
      · split at h
        · exact absurd h (by simp)
        · split at h
          · exact absurd h (by simp)
          · split at h
            · injection h with h
              subst h
              refine ⟨no_colon_takeWhile_lc _, ?_⟩
              intro d hd
              cases hd
            · split at h
              · injection h with h
                subst h
                refine ⟨no_colon_takeWhile_lc _, ?_⟩
                intro d hd
                cases hd
              · split at h
                · rename_i hcond
                  injection h with h
                  subst h
                  refine ⟨no_colon_takeWhile_lc _, ?_⟩
                  intro d hd
                  injection hd with hd
                  subst hd
                  exact no_colon_stripZeros (Bool.and_elim_left hcond)
                · exact absurd h (by simp)
            · exact absurd h (by simp)
  · exact absurd h (by simp)

theorem append_colon_inj {a x : List Char} :
    ∀ {b y : List Char}, ':' ∉ a → ':' ∉ b → a ++ ':' :: x = b ++ ':' :: y →
      a = b ∧ x = y := by
  induction a with
  | nil =>
    intro b y _ hb h
    cases b with
    | nil =>
      simp only [List.nil_append] at h
      injection h with _ h2
      exact ⟨rfl, h2⟩
    | cons c b2 =>
      simp only [List.nil_append, List.cons_append] at h
      injection h with h1 _
      exact absurd (List.mem_cons.mpr (Or.inl h1)) hb
  | cons c a2 ih =>
    intro b y ha hb h
    cases b with
    | nil =>
      simp only [List.cons_append, List.nil_append] at h
      injection h with h1 _
      exact absurd (List.mem_cons.mpr (Or.inl h1.symm)) ha
    | cons c2 b2 =>
      simp only [List.cons_append] at h
      injection h with h1 h2
      have ha2 : ':' ∉ a2 := fun hc => ha (List.mem_cons.mpr (Or.inr hc))
      have hb2 : ':' ∉ b2 := fun hc => hb (List.mem_cons.mpr (Or.inr hc))
      rcases ih ha2 hb2 h2 with ⟨he1, he2⟩
      exact ⟨by rw [h1, he1], he2⟩

theorem hostKeyOfParts_eq_iff {p q : UrlParts} (hp : ':' ∉ p.host) (hq : ':' ∉ q.host) :
    hostKeyOfParts p = hostKeyOfParts q ↔ p.host = q.host ∧ displayPort p = displayPort q := by
  unfold hostKeyOfParts
  rcases hdp : displayPort p with _ | d1 <;> rcases hdq : displayPort q with _ | d2 <;>
    dsimp only
  · simp
  · constructor
    · intro h
      exfalso
      apply hp
      rw [h]
      exact List.mem_append.mpr (Or.inr (List.mem_cons_self _ _))
    · intro ⟨_, hc⟩
      cases hc
  · constructor
    · intro h
      exfalso
      apply hq
      rw [← h]
      exact List.mem_append.mpr (Or.inr (List.mem_cons_self _ _))
    · intro ⟨_, hc⟩
      cases hc
  · constructor
    · intro h
      rcases append_colon_inj hp hq h with ⟨h1, h2⟩
      exact ⟨h1, by rw [h2]⟩
    · intro ⟨h1, h2⟩
      injection h2 with h2
      rw [h1, h2]

theorem string_mk_inj {a b : List Char} (h : String.mk a = String.mk b) : a = b := by
  injection h

theorem displayPort_no_colon {cs : List Char} {p : UrlParts} (h : parseUrlL cs = some p) :
    ∀ d, displayPort p = some d → ':' ∉ d := by
  intro d hd
  unfold displayPort at hd
  rcases hport : p.port with _ | d0
  · rw [hport] at hd
    cases hd
  · rw [hport] at hd
    dsimp only at hd
    split at hd
    · cases hd
    · injection hd with hd
      subst hd
      exact (parse_shape h).2 _ hport

/-! ## Claim theorems -/

/-- C7 counterexample: the claim asserts that two URLs identical except for
their scheme belong to different host keys.  In the code `getHostKey` is
`new URL(url).host`, which contains no scheme: `http://example.com/x` and
`https://example.com/x` differ only in scheme (their parsed schemes differ)
yet map to the same host key `example.com`, hence to the same admission
queue. -/
theorem C7_counterexample :
    getHostKey "http://example.com/x" = some "example.com" ∧
    getHostKey "https://example.com/x" = some "example.com" ∧
    (parseUrl "http://example.com/x").map UrlParts.scheme ≠
      (parseUrl "https://example.com/x").map UrlParts.scheme := by
  refine ⟨by decide, by decide, by decide⟩

/-- C7 amended: for every pair of valid URLs, `getHostKey` maps them to the
same host key if and only if they agree on the hostname and on the rendered
port (the port being elided when it equals the scheme's default).  The
scheme itself is not part of the key, so two URLs that differ only in their
scheme share a host key — and an admission queue — whenever their rendered
ports agree; in particular whenever neither carries an explicit port
(second part).  An explicit port that equals exactly one scheme's default
renders differently under the two schemes and still separates the keys. -/
theorem C7_amended :
    (∀ u1 u2 p1 p2, parseUrl u1 = some p1 → parseUrl u2 = some p2 →
      (getHostKey u1 = getHostKey u2 ↔
        p1.host = p2.host ∧ displayPort p1 = displayPort p2)) ∧
    (∀ u1 u2 p1 p2, parseUrl u1 = some p1 → parseUrl u2 = some p2 →
      p1.host = p2.host → p1.port = none → p2.port = none →
      getHostKey u1 = getHostKey u2) := by
  have hiff : ∀ u1 u2 p1 p2, parseUrl u1 = some p1 → parseUrl u2 = some p2 →
      (getHostKey u1 = getHostKey u2 ↔
        p1.host = p2.host ∧ displayPort p1 = displayPort p2) := by
    intro u1 u2 p1 p2 h1 h2
    unfold getHostKey
    rw [h1, h2]
    constructor
    · intro h
      simp only [Option.map_some'] at h
      injection h with h
      exact (hostKeyOfParts_eq_iff (parse_shape h1).1 (parse_shape h2).1).mp (string_mk_inj h)
    · intro hcomp
      have heq := (hostKeyOfParts_eq_iff (parse_shape h1).1 (parse_shape h2).1).mpr hcomp
      simp only [Option.map_some']
      rw [heq]
  refine ⟨hiff, ?_⟩
  intro u1 u2 p1 p2 h1 h2 hhost hp1 hp2
  have hd1 : displayPort p1 = none := by
    unfold displayPort
    rw [hp1]
  have hd2 : displayPort p2 = none := by
    unfold displayPort
    rw [hp2]
  exact (hiff u1 u2 p1 p2 h1 h2).mpr ⟨hhost, by rw [hd1, hd2]⟩

/-- Witness for C7 amended at a concrete input: `http://a.com/one` and
`https://a.com/two` parse with the same host and no explicit port, and
therefore share a host key. -/
theorem C7_amended_witness :
    getHostKey "http://a.com/one" = getHostKey "https://a.com/two" :=
  C7_amended.2 "http://a.com/one" "https://a.com/two"
    ⟨"http".toList, "a.com".toList, none⟩ ⟨"https".toList, "a.com".toList, none⟩
    (by decide) (by decide) rfl rfl rfl

namespace CounterVariant

theorem regBegun_frame {S T : St} (hi : T.inFlight = S.inFlight)
    (hb : T.begins = S.begins) (h : regBegun S) : regBegun T := by
  intro p hp
  rw [hi] at hp
  rcases h p hp with ⟨b, hbm, hbp⟩
  exact ⟨b, hb ▸ hbm, hbp⟩

theorem startTask_regBegun (S : St) (cid : Nat) (url h : String) (fb : Option Nat)
    (hreg : regBegun S) : regBegun (startTask S cid url h fb) := by
  intro p hp
  simp only [startTask] at hp
  rcases List.mem_cons.mp hp with hp1 | hp2
  · subst hp1
    refine ⟨⟨S.nextTid, url, h, fb⟩, ?_, rfl, rfl⟩
    show _ ∈ S.begins ++ [(⟨S.nextTid, url, h, fb⟩ : BeginEv)]
    exact List.mem_append_right _ (List.mem_singleton.mpr rfl)
  · rcases hreg p hp2 with ⟨b, hbm, hbp⟩
    exact ⟨b, List.mem_append_left _ hbm, hbp⟩

theorem submit_regBegun (S : St) (cid : Nat) (url : String) (fb : Option Nat)
    (hreg : regBegun S) : regBegun (submit S cid url fb) := by
  rcases halook : alook S.inFlight url with _ | f
  · rcases hkey : getHostKey url with _ | h
    · rw [submit_invalid S cid url fb halook hkey]
      exact regBegun_frame rfl rfl hreg
    · by_cases hfull : MAX_CONCURRENT_REQUESTS ≤ S.ctr h
      · rw [submit_buffer S cid url fb h halook hkey hfull]
        exact regBegun_frame rfl rfl hreg
      · rw [submit_start S cid url fb h halook hkey (Nat.lt_of_not_le hfull)]
        exact startTask_regBegun S cid url h fb hreg
  · rw [submit_join S cid url fb f halook]
    exact regBegun_frame rfl rfl hreg

theorem settleCleanup_regBegun (S : St) (t : RTask) (out : TransportOutcome)
    (hreg : regBegun S) : regBegun (settleCleanup S t out) := by
  intro p hp
  exact hreg p (List.mem_filter.mp hp).1

theorem finishTask_regBegun (S : St) (t : RTask) (out : TransportOutcome)
    (hreg : regBegun S) : regBegun (finishTask S t out) := by
  rcases hbuf : S.buf t.host with _ | ⟨q, rest⟩
  · simp only [finishTask, hbuf]
    exact settleCleanup_regBegun S t out hreg
  · simp only [finishTask, hbuf]
    exact submit_regBegun _ q.cid q.url (some q.seq)
      (regBegun_frame rfl rfl (settleCleanup_regBegun S t out hreg))

theorem completeTask_regBegun (S : St) (tid : Nat) (out : TransportOutcome)
    (hreg : regBegun S) : regBegun (completeTask S tid out) := by
  rcases hfind : S.running.find? (fun r => r.tid = tid) with _ | t
  · simp only [completeTask, hfind]
    exact hreg
  · simp only [completeTask, hfind]
    exact finishTask_regBegun S t out hreg

theorem step_regBegun (S : St) (e : Ev) (hreg : regBegun S) : regBegun (step S e) := by
  cases e with
  | call url =>
    show regBegun (fetchWithOptimization S url)
    unfold fetchWithOptimization
    exact submit_regBegun _ S.nextCid url none (regBegun_frame rfl rfl hreg)
  | complete tid out => exact completeTask_regBegun S tid out hreg

theorem run_regBegun (evs : List Ev) : regBegun (run evs) := by
  suffices h : ∀ S, regBegun S → regBegun (List.foldl step S evs) from
    h init (fun p hp => absurd hp (List.not_mem_nil p))
  induction evs with
  | nil => exact fun S h => h
  | cons e es ih => exact fun S h => ih (step S e) (step_regBegun S e h)

end CounterVariant

/-- C1 counterexample on the counter variant (`src/src/httpClient.ts`).
The sixth call of `cvDemoEvs` requests `http://h.com/x` while the earlier
task for that fingerprint is still buffered in the host queue (conjuncts 4
and 5: after five events the buffer holds `x` then `d`, and the dedup map
has no entry for `x`).  The claim requires that call to join the existing
future and the call set to share one transport call; instead the run makes
two transport calls for the fingerprint (conjunct 1) and attaches the two
callers to two different futures, 3 and 5 (conjuncts 2 and 3). -/
theorem C1_counterexample :
    ((CounterVariant.run cvDemoEvs).begins.filter
      (fun b => b.url = "http://h.com/x")).length = 2 ∧
    (CounterVariant.run cvDemoEvs).callers 3 = some (CounterVariant.CallerRef.fut 3) ∧
    (CounterVariant.run cvDemoEvs).callers 5 = some (CounterVariant.CallerRef.fut 5) ∧
    ((CounterVariant.run (cvDemoEvs.take 5)).buf "h.com").map (fun q => q.url) =
      ["http://h.com/x", "http://h.com/d"] ∧
    alook (CounterVariant.run (cvDemoEvs.take 5)).inFlight "http://h.com/x" = none := by
  refine ⟨by decide, by decide, by decide, by decide, by decide⟩

/-- C1 amended: the registration-window guarantee holds in both families:
while a fingerprint is registered in the dedup map, any call for it joins
the registered future without creating a task, touching any buffer or the
running set, or invoking the transport, the registered future has exactly
one logged transport begin (for that URL, at most one per future ever),
and callers chained to one future observe the same settled result.  The
variants differ in the window: the async.queue variants register the entry
at submission time, so the window covers the task's whole life, buffered
or running, and exactly one task per registered fingerprint exists; the
counter variant registers the entry only when the transport call starts,
so a call whose fingerprint belongs to a still-buffered task falls outside
the window and creates a second task (see the counterexample) — the
claim's buffered-task clause fails there. -/
theorem C1_amended :
    (∀ stamp evs u f, alook (AsyncQueueVariant.run stamp evs).inFlight u = some f →
      (∃ t, AsyncQueueVariant.liveTask (AsyncQueueVariant.run stamp evs) t ∧
        t.url = u ∧ t.tid = f) ∧
      (∀ t1 t2, AsyncQueueVariant.liveTask (AsyncQueueVariant.run stamp evs) t1 →
        AsyncQueueVariant.liveTask (AsyncQueueVariant.run stamp evs) t2 →
        t1.url = u → t2.url = u → t1.tid = t2.tid) ∧
      (∀ o,
        (AsyncQueueVariant.fetchWithOptimization (AsyncQueueVariant.run stamp evs) u o).callers
            (AsyncQueueVariant.run stamp evs).nextCid =
          some (AsyncQueueVariant.CallerRef.fut f) ∧
        (AsyncQueueVariant.fetchWithOptimization (AsyncQueueVariant.run stamp evs) u o).tasksLog =
          (AsyncQueueVariant.run stamp evs).tasksLog ∧
        (AsyncQueueVariant.fetchWithOptimization (AsyncQueueVariant.run stamp evs) u o).begins =
          (AsyncQueueVariant.run stamp evs).begins ∧
        (AsyncQueueVariant.fetchWithOptimization (AsyncQueueVariant.run stamp evs) u o).buf =
          (AsyncQueueVariant.run stamp evs).buf ∧
        (AsyncQueueVariant.fetchWithOptimization (AsyncQueueVariant.run stamp evs) u o).running =
          (AsyncQueueVariant.run stamp evs).running ∧
        (AsyncQueueVariant.fetchWithOptimization (AsyncQueueVariant.run stamp evs) u o).inFlight =
          (AsyncQueueVariant.run stamp evs).inFlight)) ∧
    (∀ stamp evs k, ((AsyncQueueVariant.run stamp evs).begins.filter
      (fun b => b.tid = k)).length ≤ 1) ∧
    (∀ stamp evs k, k ∈ (AsyncQueueVariant.run stamp evs).completes →
      ((AsyncQueueVariant.run stamp evs).begins.filter (fun b => b.tid = k)).length = 1) ∧
    (∀ stamp evs c1 c2 g,
      (AsyncQueueVariant.run stamp evs).callers c1 = some (AsyncQueueVariant.CallerRef.fut g) →
      (AsyncQueueVariant.run stamp evs).callers c2 = some (AsyncQueueVariant.CallerRef.fut g) →
      AsyncQueueVariant.resultOf (AsyncQueueVariant.run stamp evs) c1 =
        AsyncQueueVariant.resultOf (AsyncQueueVariant.run stamp evs) c2) ∧
    (∀ evs u f, alook (CounterVariant.run evs).inFlight u = some f →
      (CounterVariant.fetchWithOptimization (CounterVariant.run evs) u).callers
          (CounterVariant.run evs).nextCid = some (CounterVariant.CallerRef.fut f) ∧
      (CounterVariant.fetchWithOptimization (CounterVariant.run evs) u).begins =
        (CounterVariant.run evs).begins ∧
      (CounterVariant.fetchWithOptimization (CounterVariant.run evs) u).buf =
        (CounterVariant.run evs).buf ∧
      (CounterVariant.fetchWithOptimization (CounterVariant.run evs) u).running =
        (CounterVariant.run evs).running ∧
      (CounterVariant.fetchWithOptimization (CounterVariant.run evs) u).inFlight =
        (CounterVariant.run evs).inFlight ∧
      (CounterVariant.fetchWithOptimization (CounterVariant.run evs) u).ctr =
        (CounterVariant.run evs).ctr) ∧
    (∀ evs f, ((CounterVariant.run evs).begins.filter
      (fun b => b.tid = f)).length ≤ 1) ∧
    (∀ evs u f, alook (CounterVariant.run evs).inFlight u = some f →
      ∃ b, b ∈ (CounterVariant.run evs).begins ∧ b.tid = f ∧ b.url = u ∧
        ((CounterVariant.run evs).begins.filter (fun b2 => b2.tid = f)).length = 1) ∧
    (∀ evs c1 c2 g,
      (CounterVariant.run evs).callers c1 = some (CounterVariant.CallerRef.fut g) →
      (CounterVariant.run evs).callers c2 = some (CounterVariant.CallerRef.fut g) →
      CounterVariant.resultOf (CounterVariant.run evs) c1 =
        CounterVariant.resultOf (CounterVariant.run evs) c2) := by
  refine ⟨?_, ?_, ?_, ?_, ?_, ?_, ?_, ?_⟩
  · intro stamp evs u f hreg
    have hInv := AsyncQueueVariant.aq_run_inv stamp evs
    refine ⟨hInv.reg_live u f hreg, ?_, ?_⟩
    · intro t1 t2 l1 l2 hu1 hu2
      exact hInv.live_url t1 t2 l1 l2 (hu1.trans hu2.symm)
    · intro o
      rw [AsyncQueueVariant.fetch_join _ u o f hreg]
      refine ⟨?_, rfl, rfl, rfl, rfl, rfl⟩
      dsimp only
      rw [upd_same]
  · intro stamp evs k
    have hInv := AsyncQueueVariant.aq_run_inv stamp evs
    rw [length_filter_key (fun b : AsyncQueueVariant.BeginEv => b.tid)
      (AsyncQueueVariant.run stamp evs).begins k]
    exact count_le_one_of_nodup hInv.beg_tid_nodup k
  · intro stamp evs k hk
    have hInv := AsyncQueueVariant.aq_run_inv stamp evs
    rcases hInv.completed_begun k hk with ⟨b, hb, hbe⟩
    have hmem : k ∈ (AsyncQueueVariant.run stamp evs).begins.map (fun b => b.tid) :=
      List.mem_map.mpr ⟨b, hb, hbe⟩
    have h1 : 1 ≤ ((AsyncQueueVariant.run stamp evs).begins.map (fun b => b.tid)).count k :=
      List.one_le_count_iff.mpr hmem
    have h2 := count_le_one_of_nodup hInv.beg_tid_nodup k
    rw [length_filter_key (fun b : AsyncQueueVariant.BeginEv => b.tid)
      (AsyncQueueVariant.run stamp evs).begins k]
    omega
  · intro stamp evs c1 c2 g e1 e2
    unfold AsyncQueueVariant.resultOf
    rw [e1, e2]
  · intro evs u f hreg
    have hreg2 : alook (({ CounterVariant.run evs with
        nextCid := (CounterVariant.run evs).nextCid + 1 } : CounterVariant.St).inFlight) u =
        some f := hreg
    unfold CounterVariant.fetchWithOptimization
    rw [CounterVariant.submit_join { CounterVariant.run evs with
      nextCid := (CounterVariant.run evs).nextCid + 1 } (CounterVariant.run evs).nextCid
      u none f hreg2]
    refine ⟨?_, rfl, rfl, rfl, rfl, rfl⟩
    dsimp only
    rw [upd_same]
  · intro evs f
    rw [length_filter_key (fun b : CounterVariant.BeginEv => b.tid)
      (CounterVariant.run evs).begins f]
    exact count_le_one_of_nodup (CounterVariant.run_inv evs).beg_tid_nodup f
  · intro evs u f hreg
    rcases CounterVariant.run_regBegun evs (u, f) (alook_mem hreg) with ⟨b, hb, hbt, hbu⟩
    refine ⟨b, hb, hbt, hbu, ?_⟩
    have hmem : f ∈ (CounterVariant.run evs).begins.map (fun b => b.tid) :=
      List.mem_map.mpr ⟨b, hb, hbt⟩
    have h1 : 1 ≤ ((CounterVariant.run evs).begins.map (fun b => b.tid)).count f :=
      List.one_le_count_iff.mpr hmem
    have h2 := count_le_one_of_nodup (CounterVariant.run_inv evs).beg_tid_nodup f
    rw [length_filter_key (fun b : CounterVariant.BeginEv => b.tid)
      (CounterVariant.run evs).begins f]
    omega
  · intro evs c1 c2 g e1 e2
    unfold CounterVariant.resultOf
    rw [e1, e2]

/-- Witness for C1 amended at concrete inputs: after one async.queue call,
the fingerprint is registered with future 0 and a live task for it exists;
and in the counter variant, with `http://h.com/a` registered as future 0
after three calls, a fourth call for it joins future 0. -/
theorem C1_amended_witness :
    (∃ t, AsyncQueueVariant.liveTask (AsyncQueueVariant.run false aqDemoC1) t ∧
      t.url = "http://h.com/x" ∧ t.tid = 0) ∧
    (CounterVariant.fetchWithOptimization (CounterVariant.run (cvDemoEvs.take 3))
        "http://h.com/a").callers (CounterVariant.run (cvDemoEvs.take 3)).nextCid =
      some (CounterVariant.CallerRef.fut 0) :=
  ⟨(C1_amended.1 false aqDemoC1 "http://h.com/x" 0 (by decide)).1,
    (C1_amended.2.2.2.2.1 (cvDemoEvs.take 3) "http://h.com/a" 0 (by decide)).1⟩

/-- C2: in every reachable state of either family, at most
`MAX_CONCURRENT_REQUESTS = 3` transport calls are executing per host key;
the host counter (counter variant) and the worker count (async.queue
variants) count exactly the running tasks of the host; and a request
arriving beyond the bound is buffered, not started: in the counter variant
a call finding the counter full appends a queue entry and leaves the
transport-begin log and the running set untouched, and in the async.queue
variants a worker slot is never claimed while the count is full. -/
theorem C2_concurrency_bound :
    MAX_CONCURRENT_REQUESTS = 3 ∧
    (∀ evs h, ((CounterVariant.run evs).running.filter
      (fun t => t.host = h)).length ≤ MAX_CONCURRENT_REQUESTS) ∧
    (∀ evs h, (CounterVariant.run evs).ctr h =
      ((CounterVariant.run evs).running.filter (fun t => t.host = h)).length) ∧
    (∀ evs url h, alook (CounterVariant.run evs).inFlight url = none →
      getHostKey url = some h →
      MAX_CONCURRENT_REQUESTS ≤ (CounterVariant.run evs).ctr h →
      (CounterVariant.fetchWithOptimization (CounterVariant.run evs) url).begins =
        (CounterVariant.run evs).begins ∧
      (CounterVariant.fetchWithOptimization (CounterVariant.run evs) url).running =
        (CounterVariant.run evs).running ∧
      (CounterVariant.fetchWithOptimization (CounterVariant.run evs) url).buf h =
        (CounterVariant.run evs).buf h ++
          [⟨(CounterVariant.run evs).nextCid, url, (CounterVariant.run evs).nextSeq⟩]) ∧
    (∀ stamp evs h, ((AsyncQueueVariant.run stamp evs).running.filter
      (fun p => p.2 = h)).length ≤ MAX_CONCURRENT_REQUESTS) ∧
    (∀ stamp evs h, (AsyncQueueVariant.run stamp evs).runCnt h =
      ((AsyncQueueVariant.run stamp evs).running.filter (fun p => p.2 = h)).length) ∧
    (∀ stamp (S : AsyncQueueVariant.St) h ts,
      ¬ S.runCnt h < MAX_CONCURRENT_REQUESTS →
      AsyncQueueVariant.dispatch stamp S h ts = S) := by
  refine ⟨rfl, ?_, ?_, ?_, ?_, ?_, ?_⟩
  · intro evs h
    have hInv := CounterVariant.run_inv evs
    rw [← hInv.ctr_count h]
    exact hInv.ctr_le h
  · intro evs h
    exact (CounterVariant.run_inv evs).ctr_count h
  · intro evs url h halook hkey hfull
    unfold CounterVariant.fetchWithOptimization
    rw [CounterVariant.submit_buffer
      { CounterVariant.run evs with nextCid := (CounterVariant.run evs).nextCid + 1 }
      (CounterVariant.run evs).nextCid url none h halook hkey hfull]
    refine ⟨rfl, rfl, ?_⟩
    dsimp only
    rw [upd_same]
  · intro stamp evs h
    have hInv := AsyncQueueVariant.aq_run_inv stamp evs
    rw [← hInv.cnt_count h]
    exact hInv.cnt_le h
  · intro stamp evs h
    exact (AsyncQueueVariant.aq_run_inv stamp evs).cnt_count h
  · intro stamp S h ts hfull
    rcases hbuf : S.buf h with _ | ⟨t, rest⟩
    · exact AsyncQueueVariant.dispatch_nil stamp S h ts hbuf
    · exact AsyncQueueVariant.dispatch_full stamp S h ts t rest hbuf hfull

/-- Witness for C2 at a concrete input: with the three slots of `h.com`
full after three calls, a further call is buffered and starts no transport
call. -/
theorem C2_witness :
    (CounterVariant.fetchWithOptimization (CounterVariant.run (cvDemoEvs.take 3))
      "http://h.com/z").begins = (CounterVariant.run (cvDemoEvs.take 3)).begins ∧
    (CounterVariant.fetchWithOptimization (CounterVariant.run (cvDemoEvs.take 3))
      "http://h.com/z").running = (CounterVariant.run (cvDemoEvs.take 3)).running ∧
    (CounterVariant.fetchWithOptimization (CounterVariant.run (cvDemoEvs.take 3))
      "http://h.com/z").buf "h.com" = (CounterVariant.run (cvDemoEvs.take 3)).buf "h.com" ++
        [⟨(CounterVariant.run (cvDemoEvs.take 3)).nextCid, "http://h.com/z",
          (CounterVariant.run (cvDemoEvs.take 3)).nextSeq⟩] :=
  C2_concurrency_bound.2.2.2.1 (cvDemoEvs.take 3) "http://h.com/z" "h.com"
    (by decide) (by decide) (by decide)

/-- C3: buffered requests of one host start their transport calls in
strict buffering order.  In the counter variant, buffered entries carry
strictly increasing sequence numbers, and the sequence numbers of entries
whose transport call has begun (`begunSeqs`, chronological in the begin
log) are strictly increasing — including begins performed by the
completion path's re-invocation, which always shifts the buffer head.  In
the async.queue variants, the buffer of a host is sorted by task identity
(assigned in submission order) and the begin log of a host is strictly
increasing in task identity.  A dequeued duplicate that joins an in-flight
call starts no transport call of its own and is skipped by the order. -/
theorem C3_fifo :
    (∀ evs h, List.Pairwise (fun a b => a < b)
      (CounterVariant.begunSeqs (CounterVariant.run evs) h)) ∧
    (∀ evs h, List.Pairwise (fun a b => a.seq < b.seq) ((CounterVariant.run evs).buf h)) ∧
    (∀ stamp evs h, List.Pairwise (fun a b => a < b)
      (((AsyncQueueVariant.run stamp evs).begins.filter
        (fun b => b.host = h)).map (fun b => b.tid))) ∧
    (∀ stamp evs h, List.Pairwise (fun a b => a.tid < b.tid)
      ((AsyncQueueVariant.run stamp evs).buf h)) := by
  refine ⟨?_, ?_, ?_, ?_⟩
  · intro evs h
    exact (CounterVariant.run_inv evs).begun_sorted h
  · intro evs h
    exact (CounterVariant.run_inv evs).buf_sorted h
  · intro stamp evs h
    exact (AsyncQueueVariant.aq_run_inv stamp evs).begun_sorted h
  · intro stamp evs h
    exact (AsyncQueueVariant.aq_run_inv stamp evs).buf_sorted h

/-- C4: a call whose URL cannot be parsed and whose fingerprint is not in
flight fails with the invalid-URL error delivered to that caller alone, and
mutates nothing else: in both families the dedup map, the host buffers, the
counters, the running set, the begin log and the futures are untouched (and
in the async.queue variants no queue is created).  The async.queue variants
do perform the body normalization on the caller's options object first,
since it precedes the dedup check. -/
theorem C4_invalid_url :
    (∀ (S : CounterVariant.St) url, getHostKey url = none →
      alook S.inFlight url = none →
      (CounterVariant.fetchWithOptimization S url).callers S.nextCid =
        some (CounterVariant.CallerRef.err (JsError.invalidUrl url)) ∧
      (∀ c, c ≠ S.nextCid →
        (CounterVariant.fetchWithOptimization S url).callers c = S.callers c) ∧
      (CounterVariant.fetchWithOptimization S url).buf = S.buf ∧
      (CounterVariant.fetchWithOptimization S url).ctr = S.ctr ∧
      (CounterVariant.fetchWithOptimization S url).running = S.running ∧
      (CounterVariant.fetchWithOptimization S url).inFlight = S.inFlight ∧
      (CounterVariant.fetchWithOptimization S url).begins = S.begins ∧
      (CounterVariant.fetchWithOptimization S url).futures = S.futures) ∧
    (∀ (S : AsyncQueueVariant.St) url o, getHostKey url = none →
      alook S.inFlight url = none →
      (AsyncQueueVariant.fetchWithOptimization S url o).callers S.nextCid =
        some (AsyncQueueVariant.CallerRef.err (JsError.invalidUrl url)) ∧
      (∀ c, c ≠ S.nextCid →
        (AsyncQueueVariant.fetchWithOptimization S url o).callers c = S.callers c) ∧
      (AsyncQueueVariant.fetchWithOptimization S url o).hasQueue = S.hasQueue ∧
      (AsyncQueueVariant.fetchWithOptimization S url o).buf = S.buf ∧
      (AsyncQueueVariant.fetchWithOptimization S url o).runCnt = S.runCnt ∧
      (AsyncQueueVariant.fetchWithOptimization S url o).running = S.running ∧
      (AsyncQueueVariant.fetchWithOptimization S url o).inFlight = S.inFlight ∧
      (AsyncQueueVariant.fetchWithOptimization S url o).begins = S.begins ∧
      (AsyncQueueVariant.fetchWithOptimization S url o).tasksLog = S.tasksLog ∧
      (AsyncQueueVariant.fetchWithOptimization S url o).futures = S.futures ∧
      (AsyncQueueVariant.fetchWithOptimization S url o).callerOpts S.nextCid =
        some (normalizeBody o)) := by
  constructor
  · intro S url hkey halook
    unfold CounterVariant.fetchWithOptimization
    rw [CounterVariant.submit_invalid { S with nextCid := S.nextCid + 1 }
      S.nextCid url none halook hkey]
    refine ⟨?_, ?_, rfl, rfl, rfl, rfl, rfl, rfl⟩
    · dsimp only
      rw [upd_same]
    · intro c hc
      dsimp only
      rw [upd_ne _ _ _ hc]
  · intro S url o hkey halook
    rw [AsyncQueueVariant.fetch_invalid S url o halook hkey]
    refine ⟨?_, ?_, rfl, rfl, rfl, rfl, rfl, rfl, rfl, rfl, ?_⟩
    · dsimp only
      rw [upd_same]
    · intro c hc
      dsimp only
      rw [upd_ne _ _ _ hc]
    · dsimp only
      rw [upd_same]

/-- Witness for C4 at a concrete input: calling the fresh counter-variant
client with the unparsable URL `not a url` rejects that caller with the
invalid-URL error. -/
theorem C4_witness :
    (CounterVariant.fetchWithOptimization CounterVariant.init "not a url").callers
        CounterVariant.init.nextCid =
      some (CounterVariant.CallerRef.err (JsError.invalidUrl "not a url")) :=
  (C4_invalid_url.1 CounterVariant.init "not a url" (by decide) (by decide)).1

namespace CounterVariant

theorem completeTask_eq_finish {S : St} {tid : Nat} {out : TransportOutcome} {t : RTask}
    (hfind : S.running.find? (fun r => r.tid = tid) = some t) :
    completeTask S tid out = finishTask S t out := by
  simp only [completeTask, hfind]

theorem finishTask_futures (S : St) (t : RTask) (out : TransportOutcome) :
    (finishTask S t out).futures = upd S.futures t.tid (some (settleResult out)) := by
  rcases hbuf : S.buf t.host with _ | ⟨q, rest⟩
  · simp only [finishTask, hbuf]
    rfl
  · simp only [finishTask, hbuf]
    rw [submit_futures_unchanged]
    rfl

theorem finishTask_nextTid (S : St) (t : RTask) (out : TransportOutcome) :
    S.nextTid ≤ (finishTask S t out).nextTid := by
  rcases hbuf : S.buf t.host with _ | ⟨q, rest⟩
  · simp only [finishTask, hbuf]
    exact Nat.le_refl _
  · simp only [finishTask, hbuf]
    exact submit_nextTid { settleCleanup S t out with buf := upd S.buf t.host rest }
      q.cid q.url (some q.seq)

theorem finishTask_lookup_fresh (S : St) (t : RTask) (out : TransportOutcome)
    (hInv : Inv S) (ht : t ∈ S.running) :
    ∀ f, alook (finishTask S t out).inFlight t.url = some f → t.tid < f := by
  intro f hf
  rcases hbuf : S.buf t.host with _ | ⟨q, rest⟩
  · simp only [finishTask, hbuf] at hf
    rw [show (settleCleanup S t out).inFlight =
      S.inFlight.filter (fun p => p.1 ≠ t.url) from rfl, alook_filter_self] at hf
    cases hf
  · simp only [finishTask, hbuf] at hf
    rcases halook : alook (({ settleCleanup S t out with
        buf := upd S.buf t.host rest } : St).inFlight) q.url with _ | f2
    · rcases hkey : getHostKey q.url with _ | h2
      · rw [submit_invalid { settleCleanup S t out with buf := upd S.buf t.host rest }
          q.cid q.url (some q.seq) halook hkey] at hf
        dsimp only at hf
        rw [show (settleCleanup S t out).inFlight =
          S.inFlight.filter (fun p => p.1 ≠ t.url) from rfl, alook_filter_self] at hf
        cases hf
      · by_cases hfull : MAX_CONCURRENT_REQUESTS ≤
          ({ settleCleanup S t out with buf := upd S.buf t.host rest } : St).ctr h2
        · rw [submit_buffer { settleCleanup S t out with buf := upd S.buf t.host rest }
            q.cid q.url (some q.seq) h2 halook hkey hfull] at hf
          dsimp only at hf
          rw [show (settleCleanup S t out).inFlight =
            S.inFlight.filter (fun p => p.1 ≠ t.url) from rfl, alook_filter_self] at hf
          cases hf
        · rw [submit_start { settleCleanup S t out with buf := upd S.buf t.host rest }
            q.cid q.url (some q.seq) h2 halook hkey (Nat.lt_of_not_le hfull)] at hf
          unfold startTask at hf
          dsimp only at hf
          rw [alook_cons] at hf
          by_cases hq : q.url = t.url
          · rw [if_pos hq] at hf
            injection hf with hf
            subst hf
            exact hInv.run_tid_lt t ht
          · rw [if_neg hq] at hf
            rw [show (settleCleanup S t out).inFlight =
              S.inFlight.filter (fun p => p.1 ≠ t.url) from rfl, alook_filter_self] at hf
            cases hf
    · rw [submit_join { settleCleanup S t out with buf := upd S.buf t.host rest }
        q.cid q.url (some q.seq) f2 halook] at hf
      dsimp only at hf
      rw [show (settleCleanup S t out).inFlight =
        S.inFlight.filter (fun p => p.1 ≠ t.url) from rfl, alook_filter_self] at hf
      cases hf

end CounterVariant

/-- C5: on every settlement path (ok status, HTTP status error, transport
error — and decode error in the async.queue variants, all covered by the
arbitrary transport outcome `out`), the settlement of the task's future and
the removal of its dedup entry happen in the same atomic continuation, so
waiters can never observe the settlement with the entry still present.
Afterwards the fingerprint no longer resolves to the settled future — in
the counter variant any entry for it is strictly newer (the completion path
may have immediately started a buffered duplicate), in the async.queue
variants it is gone —  so a subsequent call with the same fingerprint never
rejoins the settled future: it starts or buffers a fresh task (counter
variant) or pushes a fresh task with a fresh future (async.queue variants)
instead of replaying the previous result or error. -/
theorem C5_cleanup :
    (∀ evs tid out t,
      (CounterVariant.run evs).running.find? (fun r => r.tid = tid) = some t →
      (CounterVariant.completeTask (CounterVariant.run evs) tid out).futures t.tid =
        some (CounterVariant.settleResult out) ∧
      (∀ f, alook (CounterVariant.completeTask (CounterVariant.run evs) tid out).inFlight
        t.url = some f → t.tid < f) ∧
      (CounterVariant.fetchWithOptimization
          (CounterVariant.completeTask (CounterVariant.run evs) tid out) t.url).callers
          (CounterVariant.completeTask (CounterVariant.run evs) tid out).nextCid ≠
        some (CounterVariant.CallerRef.fut t.tid) ∧
      (alook (CounterVariant.completeTask (CounterVariant.run evs) tid out).inFlight
          t.url = none →
        (CounterVariant.completeTask (CounterVariant.run evs) tid out).ctr t.host <
          MAX_CONCURRENT_REQUESTS →
        (CounterVariant.fetchWithOptimization
            (CounterVariant.completeTask (CounterVariant.run evs) tid out) t.url).begins =
          (CounterVariant.completeTask (CounterVariant.run evs) tid out).begins ++
            [⟨(CounterVariant.completeTask (CounterVariant.run evs) tid out).nextTid,
              t.url, t.host, none⟩])) ∧
    (∀ stamp evs tid out t h,
      (AsyncQueueVariant.run stamp evs).running.find? (fun p => p.1.tid = tid) =
        some (t, h) →
      (AsyncQueueVariant.completeTask (AsyncQueueVariant.run stamp evs) tid out).futures
          t.tid = some (AsyncQueueVariant.settleResult out) ∧
      alook (AsyncQueueVariant.completeTask (AsyncQueueVariant.run stamp evs) tid
        out).inFlight t.url = none ∧
      (∀ o,
        t.tid <
          (AsyncQueueVariant.completeTask (AsyncQueueVariant.run stamp evs) tid out).nextTid ∧
        (AsyncQueueVariant.fetchWithOptimization
            (AsyncQueueVariant.completeTask (AsyncQueueVariant.run stamp evs) tid out)
            t.url o).callers
            (AsyncQueueVariant.completeTask (AsyncQueueVariant.run stamp evs) tid
              out).nextCid =
          some (AsyncQueueVariant.CallerRef.fut
            (AsyncQueueVariant.completeTask (AsyncQueueVariant.run stamp evs) tid
              out).nextTid) ∧
        (AsyncQueueVariant.fetchWithOptimization
            (AsyncQueueVariant.completeTask (AsyncQueueVariant.run stamp evs) tid out)
            t.url o).tasksLog =
          (AsyncQueueVariant.completeTask (AsyncQueueVariant.run stamp evs) tid
            out).tasksLog ++
            [((AsyncQueueVariant.completeTask (AsyncQueueVariant.run stamp evs) tid
              out).nextTid, t.url)] ∧
        (AsyncQueueVariant.fetchWithOptimization
            (AsyncQueueVariant.completeTask (AsyncQueueVariant.run stamp evs) tid out)
            t.url o).begins =
          (AsyncQueueVariant.completeTask (AsyncQueueVariant.run stamp evs) tid
            out).begins)) := by
  constructor
  · intro evs tid out t hfind
    have hInv := CounterVariant.run_inv evs
    have htmem := List.mem_of_find?_eq_some hfind
    rw [CounterVariant.completeTask_eq_finish hfind]
    have hfut : (CounterVariant.finishTask (CounterVariant.run evs) t out).futures t.tid =
        some (CounterVariant.settleResult out) := by
      rw [CounterVariant.finishTask_futures, upd_same]
    have hlk := CounterVariant.finishTask_lookup_fresh (CounterVariant.run evs) t out
      hInv htmem
    have hnext : t.tid < (CounterVariant.finishTask (CounterVariant.run evs) t out).nextTid :=
      Nat.lt_of_lt_of_le (hInv.run_tid_lt t htmem)
        (CounterVariant.finishTask_nextTid (CounterVariant.run evs) t out)
    refine ⟨hfut, hlk, ?_, ?_⟩
    · unfold CounterVariant.fetchWithOptimization
      rcases halook : alook (CounterVariant.finishTask (CounterVariant.run evs) t
          out).inFlight t.url with _ | f
      · rcases hkey : getHostKey t.url with _ | h2
        · rw [CounterVariant.submit_invalid
            { CounterVariant.finishTask (CounterVariant.run evs) t out with
              nextCid := (CounterVariant.finishTask (CounterVariant.run evs) t out).nextCid + 1 }
            (CounterVariant.finishTask (CounterVariant.run evs) t out).nextCid t.url none
            halook hkey]
          dsimp only
          rw [upd_same]
          intro hc
          cases hc
        · by_cases hfull : MAX_CONCURRENT_REQUESTS ≤
            ({ CounterVariant.finishTask (CounterVariant.run evs) t out with
              nextCid := (CounterVariant.finishTask (CounterVariant.run evs) t out).nextCid + 1 } :
                CounterVariant.St).ctr h2
          · rw [CounterVariant.submit_buffer
              { CounterVariant.finishTask (CounterVariant.run evs) t out with
                nextCid :=
                  (CounterVariant.finishTask (CounterVariant.run evs) t out).nextCid + 1 }
              (CounterVariant.finishTask (CounterVariant.run evs) t out).nextCid t.url none
              h2 halook hkey hfull]
            dsimp only
            rw [upd_same]
            intro hc
            cases hc
          · rw [CounterVariant.submit_start
              { CounterVariant.finishTask (CounterVariant.run evs) t out with
                nextCid :=
                  (CounterVariant.finishTask (CounterVariant.run evs) t out).nextCid + 1 }
              (CounterVariant.finishTask (CounterVariant.run evs) t out).nextCid t.url none
              h2 halook hkey (Nat.lt_of_not_le hfull)]
            unfold CounterVariant.startTask
            dsimp only
            rw [upd_same]
            intro hc
            injection hc with hc
            injection hc with hc
            exact Nat.ne_of_lt hnext hc.symm
      · rw [CounterVariant.submit_join
          { CounterVariant.finishTask (CounterVariant.run evs) t out with
            nextCid := (CounterVariant.finishTask (CounterVariant.run evs) t out).nextCid + 1 }
          (CounterVariant.finishTask (CounterVariant.run evs) t out).nextCid t.url none
          f halook]
        dsimp only
        rw [upd_same]
        intro hc
        injection hc with hc
        injection hc with hc
        exact Nat.ne_of_lt (hlk f halook) hc.symm
    · intro halook hctr
      unfold CounterVariant.fetchWithOptimization
      rw [CounterVariant.submit_start
        { CounterVariant.finishTask (CounterVariant.run evs) t out with
          nextCid := (CounterVariant.finishTask (CounterVariant.run evs) t out).nextCid + 1 }
        (CounterVariant.finishTask (CounterVariant.run evs) t out).nextCid t.url none
        t.host halook (hInv.run_host t htmem) hctr]
      rfl
  · intro stamp evs tid out t h hfind
    have hInv := AsyncQueueVariant.aq_run_inv stamp evs
    have htmem := List.mem_of_find?_eq_some hfind
    rw [AsyncQueueVariant.complete_go (AsyncQueueVariant.run stamp evs) tid out t h hfind]
    refine ⟨?_, ?_, ?_⟩
    · dsimp only
      rw [upd_same]
    · dsimp only
      rw [alook_filter_self]
    · intro o
      have halook : alook (({ AsyncQueueVariant.run stamp evs with
          futures := upd (AsyncQueueVariant.run stamp evs).futures t.tid
            (some (AsyncQueueVariant.settleResult out))
          inFlight := (AsyncQueueVariant.run stamp evs).inFlight.filter
            (fun p => p.1 ≠ t.url)
          runCnt := upd (AsyncQueueVariant.run stamp evs).runCnt h
            ((AsyncQueueVariant.run stamp evs).runCnt h - 1)
          running := (AsyncQueueVariant.run stamp evs).running.filter
            (fun p => p.1.tid ≠ tid)
          completes := (AsyncQueueVariant.run stamp evs).completes ++ [tid] } :
            AsyncQueueVariant.St).inFlight) t.url = none := by
        dsimp only
        rw [alook_filter_self]
      rw [AsyncQueueVariant.fetch_push _ t.url o h halook (hInv.run_host (t, h) htmem)]
      refine ⟨?_, ?_, rfl, rfl⟩
      · exact hInv.run_tid_lt (t, h) htmem
      · dsimp only
        rw [upd_same]

namespace CounterVariant

theorem finishTask_agreeExcept (S : St) (t : RTask) (out1 out2 : TransportOutcome) :
    agreeExcept t.tid (finishTask S t out1) (finishTask S t out2) := by
  rcases hbuf : S.buf t.host with _ | ⟨q, rest⟩
  · simp only [finishTask, hbuf]
    refine ⟨rfl, rfl, rfl, rfl, rfl, rfl, rfl, rfl, rfl, ?_⟩
    intro g hg
    show upd S.futures t.tid (some (settleResult out2)) g =
      upd S.futures t.tid (some (settleResult out1)) g
    rw [upd_ne _ _ _ hg, upd_ne _ _ _ hg]
  · simp only [finishTask, hbuf]
    have h1 := submit_futures_param
      { S with
        running := S.running.filter (fun r => r.tid ≠ t.tid)
        inFlight := S.inFlight.filter (fun p => p.1 ≠ t.url)
        ctr := upd S.ctr t.host (S.ctr t.host - 1)
        buf := upd S.buf t.host rest }
      (upd S.futures t.tid (some (settleResult out1))) q.cid q.url (some q.seq)
    have h2 := submit_futures_param
      { S with
        running := S.running.filter (fun r => r.tid ≠ t.tid)
        inFlight := S.inFlight.filter (fun p => p.1 ≠ t.url)
        ctr := upd S.ctr t.host (S.ctr t.host - 1)
        buf := upd S.buf t.host rest }
      (upd S.futures t.tid (some (settleResult out2))) q.cid q.url (some q.seq)
    rw [show submit { settleCleanup S t out1 with buf := upd S.buf t.host rest }
        q.cid q.url (some q.seq) = _ from h1,
      show submit { settleCleanup S t out2 with buf := upd S.buf t.host rest }
        q.cid q.url (some q.seq) = _ from h2]
    refine ⟨rfl, rfl, rfl, rfl, rfl, rfl, rfl, rfl, rfl, ?_⟩
    intro g hg
    show upd S.futures t.tid (some (settleResult out2)) g =
      upd S.futures t.tid (some (settleResult out1)) g
    rw [upd_ne _ _ _ hg, upd_ne _ _ _ hg]

theorem completeTask_agreeExcept {S : St} {tid : Nat} {t : RTask}
    (hfind : S.running.find? (fun r => r.tid = tid) = some t)
    (out1 out2 : TransportOutcome) :
    agreeExcept t.tid (completeTask S tid out1) (completeTask S tid out2) := by
  rw [completeTask_eq_finish hfind, completeTask_eq_finish hfind]
  exact finishTask_agreeExcept S t out1 out2

theorem completeTask_dequeues {S : St} {tid : Nat} {t : RTask} (hInv : Inv S)
    (hfind : S.running.find? (fun r => r.tid = tid) = some t)
    (out : TransportOutcome) {q : QTask} {rest : List QTask}
    (hbuf : S.buf t.host = q :: rest) :
    (completeTask S tid out).buf t.host = rest := by
  have htmem := List.mem_of_find?_eq_some hfind
  have hqmem : q ∈ S.buf t.host := by
    rw [hbuf]
    exact List.mem_cons_self _ _
  have hkey : getHostKey q.url = some t.host := hInv.buf_host t.host q hqmem
  have hctr : ({ settleCleanup S t out with buf := upd S.buf t.host rest } : St).ctr t.host <
      MAX_CONCURRENT_REQUESTS := by
    show upd S.ctr t.host (S.ctr t.host - 1) t.host < MAX_CONCURRENT_REQUESTS
    rw [upd_same]
    have := hInv.ctr_count t.host
    have hpos : 0 < S.ctr t.host := by
      rw [this]
      have : t ∈ S.running.filter (fun r => r.host = t.host) :=
        List.mem_filter.mpr ⟨htmem, by simp⟩
      exact List.length_pos.mpr (fun h0 => by simp [h0] at this)
    have hle := hInv.ctr_le t.host
    unfold MAX_CONCURRENT_REQUESTS at hle ⊢
    omega
  rw [completeTask_eq_finish hfind]
  simp only [finishTask, hbuf]
  rcases halook : alook (({ settleCleanup S t out with
      buf := upd S.buf t.host rest } : St).inFlight) q.url with _ | f
  · rw [submit_start { settleCleanup S t out with buf := upd S.buf t.host rest }
      q.cid q.url (some q.seq) t.host halook hkey hctr]
    show (upd S.buf t.host rest) t.host = rest
    rw [upd_same]
  · rw [submit_join { settleCleanup S t out with buf := upd S.buf t.host rest }
      q.cid q.url (some q.seq) f halook]
    show (upd S.buf t.host rest) t.host = rest
    rw [upd_same]

end CounterVariant

namespace AsyncQueueVariant

theorem aq_completeTask_agreeExcept {S : St} {tid : Nat} {t : Task} {h : String}
    (hfind : S.running.find? (fun p => p.1.tid = tid) = some (t, h))
    (out1 out2 : TransportOutcome) :
    agreeExcept t.tid (completeTask S tid out1) (completeTask S tid out2) := by
  rw [complete_go S tid out1 t h hfind, complete_go S tid out2 t h hfind]
  refine ⟨rfl, rfl, rfl, rfl, rfl, rfl, rfl, rfl, rfl, rfl, rfl, rfl, ?_⟩
  intro g hg
  show upd S.futures t.tid (some (settleResult out2)) g =
    upd S.futures t.tid (some (settleResult out1)) g
  rw [upd_ne _ _ _ hg, upd_ne _ _ _ hg]

theorem completeTask_releases {S : St} {tid : Nat} {t : Task} {h : String}
    (hfind : S.running.find? (fun p => p.1.tid = tid) = some (t, h))
    (out : TransportOutcome) :
    (completeTask S tid out).runCnt h = S.runCnt h - 1 := by
  rw [complete_go S tid out t h hfind]
  show upd S.runCnt h (S.runCnt h - 1) h = S.runCnt h - 1
  rw [upd_same]

end AsyncQueueVariant

/-- Witness for C5 at a concrete trace: after three calls fill the host's
slots, completing task 0 with a transport failure settles its future with
the transport error. -/
theorem C5_witness :
    (CounterVariant.completeTask (CounterVariant.run (cvDemoEvs.take 3)) 0
      (TransportOutcome.netError "boom")).futures 0 =
      some (CounterVariant.settleResult (TransportOutcome.netError "boom")) :=
  (C5_cleanup.1 (cvDemoEvs.take 3) 0 (TransportOutcome.netError "boom")
    ⟨0, "http://h.com/a", "h.com", none⟩ (by decide)).1

/-- C6 counterexample on the counter variant (`src/src/httpClient.ts`): a
successful call settles the caller's promise with the raw transport
response object (lines 44–55 resolve the `Response` without calling
`.json()`), never with a parsed body. -/
theorem C6_counterexample :
    CounterVariant.resultOf (CounterVariant.run cvDemoC6) 0 =
      some (Except.ok (SettledValue.rawResponse ⟨200, some "payload"⟩)) ∧
    ∀ s, SettledValue.rawResponse ⟨200, some "payload"⟩ ≠ SettledValue.parsed s := by
  refine ⟨rfl, ?_⟩
  intro s hc
  exact SettledValue.noConfusion hc

/-- C6 amended: in the async.queue variants the claim holds — a caller
chained to a task's future observes, at completion, exactly
`settleResult`: the parsed body on an ok response with a decodable body,
an `httpStatus` error carrying the numeric status on a non-ok response, a
`transport` error on transport-level failure (and a `decode` error when
the ok body fails to parse).  In the counter variant the error taxonomy is
the same, but a successful call settles with the raw response object, not
the parsed body. -/
theorem C6_amended :
    (∀ stamp evs tid out t h c,
      (AsyncQueueVariant.run stamp evs).running.find? (fun p => p.1.tid = tid) =
        some (t, h) →
      (AsyncQueueVariant.run stamp evs).callers c =
        some (AsyncQueueVariant.CallerRef.fut t.tid) →
      AsyncQueueVariant.resultOf
          (AsyncQueueVariant.completeTask (AsyncQueueVariant.run stamp evs) tid out) c =
        some (AsyncQueueVariant.settleResult out)) ∧
    (∀ r : RawResponse, ∀ s, r.ok = true → r.jsonBody = some s →
      AsyncQueueVariant.settleResult (TransportOutcome.response r) = Except.ok s) ∧
    (∀ r : RawResponse, r.ok = false →
      AsyncQueueVariant.settleResult (TransportOutcome.response r) =
        Except.error (JsError.httpStatus r.status)) ∧
    (∀ r : RawResponse, r.ok = true → r.jsonBody = none →
      AsyncQueueVariant.settleResult (TransportOutcome.response r) =
        Except.error JsError.decode) ∧
    (∀ m, AsyncQueueVariant.settleResult (TransportOutcome.netError m) =
      Except.error (JsError.transport m)) ∧
    (∀ evs tid out t,
      (CounterVariant.run evs).running.find? (fun r => r.tid = tid) = some t →
      (CounterVariant.completeTask (CounterVariant.run evs) tid out).futures t.tid =
        some (CounterVariant.settleResult out)) ∧
    (∀ r : RawResponse, r.ok = true →
      CounterVariant.settleResult (TransportOutcome.response r) =
        Except.ok (SettledValue.rawResponse r)) ∧
    (∀ r : RawResponse, r.ok = false →
      CounterVariant.settleResult (TransportOutcome.response r) =
        Except.error (JsError.httpStatus r.status)) ∧
    (∀ m, CounterVariant.settleResult (TransportOutcome.netError m) =
      Except.error (JsError.transport m)) := by
  refine ⟨?_, ?_, ?_, ?_, ?_, ?_, ?_, ?_, ?_⟩
  · intro stamp evs tid out t h c hfind hc
    rw [AsyncQueueVariant.complete_go (AsyncQueueVariant.run stamp evs) tid out t h hfind]
    unfold AsyncQueueVariant.resultOf
    dsimp only
    rw [hc]
    exact upd_same _ _ _
  · intro r s hok hj
    simp [AsyncQueueVariant.settleResult, hok, hj]
  · intro r hok
    simp [AsyncQueueVariant.settleResult, hok]
  · intro r hok hj
    simp [AsyncQueueVariant.settleResult, hok, hj]
  · intro m
    rfl
  · intro evs tid out t hfind
    rw [CounterVariant.completeTask_eq_finish hfind, CounterVariant.finishTask_futures,
      upd_same]
  · intro r hok
    simp [CounterVariant.settleResult, hok]
  · intro r hok
    simp [CounterVariant.settleResult, hok]
  · intro m
    rfl

/-- Witness for C6 at a concrete trace: the caller of the single dispatched
task observes the parsed body of an ok response. -/
theorem C6_amended_witness :
    AsyncQueueVariant.resultOf
      (AsyncQueueVariant.completeTask (AsyncQueueVariant.run false aqDemoC6) 0
        (TransportOutcome.response ⟨200, some "body"⟩)) 0 =
      some (AsyncQueueVariant.settleResult (TransportOutcome.response ⟨200, some "body"⟩)) :=
  C6_amended.1 false aqDemoC6 0 (TransportOutcome.response ⟨200, some "body"⟩)
    ⟨0, "http://h.com/x", demoOpts⟩ "h.com" 0 (by decide) (by decide)

/-- C8: a transport failure of one task is isolated.  In both machines,
completing a running task with a failing outcome instead of a success
leaves every state component except that one task's future — buffers,
per-host counters, the running set, the dedup map, callers, and the log of
transport starts — identical after any subsequent event sequence
(`agreeExcept`: only the failing task's future can differ), while the
failing task itself settles with the error.  The slot is released: in the
counter variant the completion continuation dequeues the buffered head of
the task's host, and in the async.queue variants the host's worker count
drops by one so a waiting buffered task is dispatched next (last conjunct:
a dispatch under the limit pops the buffer head and records its transport
start). -/
theorem C8_failure_isolation :
    (∀ evs evs' tid out1 out2 t,
      (CounterVariant.run evs).running.find? (fun r => r.tid = tid) = some t →
      CounterVariant.agreeExcept t.tid
        (CounterVariant.runFrom
          (CounterVariant.completeTask (CounterVariant.run evs) tid out1) evs')
        (CounterVariant.runFrom
          (CounterVariant.completeTask (CounterVariant.run evs) tid out2) evs') ∧
      (CounterVariant.completeTask (CounterVariant.run evs) tid out2).futures t.tid =
        some (CounterVariant.settleResult out2)) ∧
    (∀ evs tid out t q rest,
      (CounterVariant.run evs).running.find? (fun r => r.tid = tid) = some t →
      (CounterVariant.run evs).buf t.host = q :: rest →
      (CounterVariant.completeTask (CounterVariant.run evs) tid out).buf t.host = rest) ∧
    (∀ stamp evs evs' tid out1 out2 t h,
      (AsyncQueueVariant.run stamp evs).running.find? (fun p => p.1.tid = tid) =
        some (t, h) →
      AsyncQueueVariant.agreeExcept t.tid
        (AsyncQueueVariant.runFrom stamp
          (AsyncQueueVariant.completeTask (AsyncQueueVariant.run stamp evs) tid out1) evs')
        (AsyncQueueVariant.runFrom stamp
          (AsyncQueueVariant.completeTask (AsyncQueueVariant.run stamp evs) tid out2) evs') ∧
      (AsyncQueueVariant.completeTask (AsyncQueueVariant.run stamp evs) tid out2).futures
        t.tid = some (AsyncQueueVariant.settleResult out2) ∧
      (AsyncQueueVariant.completeTask (AsyncQueueVariant.run stamp evs) tid out2).runCnt h =
        (AsyncQueueVariant.run stamp evs).runCnt h - 1) ∧
    (∀ stamp (X : AsyncQueueVariant.St) h ts t2 rest2,
      X.buf h = t2 :: rest2 →
      X.runCnt h < MAX_CONCURRENT_REQUESTS →
      (AsyncQueueVariant.dispatch stamp X h ts).buf h = rest2 ∧
      (AsyncQueueVariant.dispatch stamp X h ts).begins =
        X.begins ++ [⟨t2.tid, t2.url, h,
          if stamp then objSet t2.opts.headers "x-callstart" ts
          else t2.opts.headers⟩]) := by
  refine ⟨?_, ?_, ?_, ?_⟩
  · intro evs evs' tid out1 out2 t hfind
    refine ⟨CounterVariant.runFrom_agreeExcept
      (CounterVariant.completeTask_agreeExcept hfind out1 out2) evs', ?_⟩
    rw [CounterVariant.completeTask_eq_finish hfind, CounterVariant.finishTask_futures,
      upd_same]
  · intro evs tid out t q rest hfind hbuf
    exact CounterVariant.completeTask_dequeues (CounterVariant.run_inv evs) hfind out hbuf
  · intro stamp evs evs' tid out1 out2 t h hfind
    refine ⟨AsyncQueueVariant.aq_runFrom_agreeExcept
      (AsyncQueueVariant.aq_completeTask_agreeExcept hfind out1 out2) evs', ?_, ?_⟩
    · rw [AsyncQueueVariant.complete_go (AsyncQueueVariant.run stamp evs) tid out2 t h hfind]
      exact upd_same _ _ _
    · exact AsyncQueueVariant.completeTask_releases hfind out2
  · intro stamp X h ts t2 rest2 hbuf hfree
    rw [AsyncQueueVariant.dispatch_go stamp X h ts t2 rest2 hbuf hfree]
    exact ⟨upd_same _ _ _, rfl⟩

/-- Witness for C8 at a concrete trace: with three tasks running, failing
task 1 instead of completing it successfully changes nothing outside
future 1, and the failing outcome settles future 1. -/
theorem C8_witness :
    CounterVariant.agreeExcept 1
      (CounterVariant.runFrom
        (CounterVariant.completeTask (CounterVariant.run (cvDemoEvs.take 3)) 1
          (TransportOutcome.netError "down")) [])
      (CounterVariant.runFrom
        (CounterVariant.completeTask (CounterVariant.run (cvDemoEvs.take 3)) 1
          (TransportOutcome.response ⟨200, some "B"⟩)) []) ∧
    (CounterVariant.completeTask (CounterVariant.run (cvDemoEvs.take 3)) 1
      (TransportOutcome.response ⟨200, some "B"⟩)).futures 1 =
      some (CounterVariant.settleResult (TransportOutcome.response ⟨200, some "B"⟩)) :=
  C8_failure_isolation.1 (cvDemoEvs.take 3) [] 1 (TransportOutcome.netError "down")
    (TransportOutcome.response ⟨200, some "B"⟩) ⟨1, "http://h.com/b", "h.com", none⟩
    (by decide)

theorem find?_map_set (t : List (String × String)) (k v : String) :
    List.find? (fun p => p.1 = k) (t.map (fun p => if p.1 = k then (k, v) else p)) =
      (List.find? (fun p => p.1 = k) t).map (fun _ => (k, v)) := by
  induction t with
  | nil => rfl
  | cons p l ih =>
    rw [List.map_cons]
    by_cases hp : p.1 = k
    · rw [if_pos hp, List.find?_cons_of_pos _ (by simp),
        List.find?_cons_of_pos _ (by simp [hp])]
      rfl
    · rw [if_neg hp, List.find?_cons_of_neg _ (by simp [hp]),
        List.find?_cons_of_neg _ (by simp [hp])]
      exact ih

theorem find?_map_set_other (t : List (String × String)) (k v k2 : String)
    (hne : k2 ≠ k) :
    List.find? (fun p => p.1 = k2) (t.map (fun p => if p.1 = k then (k, v) else p)) =
      List.find? (fun p => p.1 = k2) t := by
  induction t with
  | nil => rfl
  | cons p l ih =>
    rw [List.map_cons]
    by_cases hp : p.1 = k
    · rw [if_pos hp, List.find?_cons_of_neg _ (by simp [Ne.symm hne]),
        List.find?_cons_of_neg _ (by simp [hp, Ne.symm hne])]
      exact ih
    · rw [if_neg hp]
      by_cases hp2 : p.1 = k2
      · rw [List.find?_cons_of_pos _ (by simp [hp2]),
          List.find?_cons_of_pos _ (by simp [hp2])]
      · rw [List.find?_cons_of_neg _ (by simp [hp2]),
          List.find?_cons_of_neg _ (by simp [hp2])]
        exact ih

theorem hGet_objSet_same (h : HeaderObj) (k v : String) :
    hGet (objSet h k v) k = some v := by
  unfold objSet hGet
  by_cases hany : h.any (fun p => p.1 = k)
  · rw [if_pos hany, find?_map_set]
    rcases hf : List.find? (fun p => p.1 = k) h with _ | q
    · have hs : (List.find? (fun p => p.1 = k) h).isSome :=
        List.find?_isSome.mpr (List.any_eq_true.mp hany)
      rw [hf] at hs
      cases hs
    · rw [hf]
      rfl
  · rw [if_neg hany, List.find?_append]
    have hnone : List.find? (fun p => p.1 = k) h = none := by
      rw [List.find?_eq_none]
      intro x hx hpx
      exact hany (List.any_eq_true.mpr ⟨x, hx, hpx⟩)
    rw [hnone]
    simp

theorem hGet_objSet_other (h : HeaderObj) (k v k2 : String) (hne : k2 ≠ k) :
    hGet (objSet h k v) k2 = hGet h k2 := by
  unfold objSet hGet
  by_cases hany : h.any (fun p => p.1 = k)
  · rw [if_pos hany, find?_map_set_other h k v k2 hne]
  · rw [if_neg hany, List.find?_append]
    have hnone : List.find? (fun p => p.1 = k2) [(k, v)] = none := by
      simp [Ne.symm hne]
    rw [hnone]
    simp

theorem objSet_ne_of_lookup_ne (h : HeaderObj) (k v : String)
    (hne : hGet h k ≠ some v) : objSet h k v ≠ h := by
  intro heq
  apply hne
  rw [← heq]
  exact hGet_objSet_same h k v

/-- C9: in the async.queue variants, the `options.body === null` check runs
first in `fetchWithOptimization`, before the dedup check and any queue
interaction, and mutates the caller-owned options object in place.  The
caller's object afterwards (registered per call as `callerOpts`) is
`normalizeBody o` on every path — join, invalid URL, or push.  The
normalization sets a `null` body to `undefined` and leaves the headers and
all other option fields unchanged; options whose body is not `null` are
untouched.  The task pushed to the queue carries the same mutated object. -/
theorem C9_body_normalization :
    (∀ (S : AsyncQueueVariant.St) url (o : RequestOptions),
      (AsyncQueueVariant.fetchWithOptimization S url o).callerOpts S.nextCid =
        some (normalizeBody o)) ∧
    (∀ o : RequestOptions, o.body = JsBody.null →
      (normalizeBody o).body = JsBody.undef ∧
      (normalizeBody o).headers = o.headers ∧
      (normalizeBody o).rest = o.rest) ∧
    (∀ o : RequestOptions, o.body ≠ JsBody.null → normalizeBody o = o) ∧
    (∀ (S : AsyncQueueVariant.St) url (o : RequestOptions) h,
      alook S.inFlight url = none → getHostKey url = some h →
      (AsyncQueueVariant.fetchWithOptimization S url o).buf h =
        S.buf h ++ [⟨S.nextTid, url, normalizeBody o⟩]) := by
  refine ⟨?_, ?_, ?_, ?_⟩
  · intro S url o
    rcases halook : alook S.inFlight url with _ | f
    · rcases hkey : getHostKey url with _ | h
      · rw [AsyncQueueVariant.fetch_invalid S url o halook hkey]
        exact upd_same _ _ _
      · rw [AsyncQueueVariant.fetch_push S url o h halook hkey]
        exact upd_same _ _ _
    · rw [AsyncQueueVariant.fetch_join S url o f halook]
      exact upd_same _ _ _
  · intro o hb
    unfold normalizeBody
    rw [if_pos hb]
    exact ⟨rfl, rfl, rfl⟩
  · intro o hb
    unfold normalizeBody
    rw [if_neg hb]
  · intro S url o h halook hkey
    rw [AsyncQueueVariant.fetch_push S url o h halook hkey]
    exact upd_same _ _ _

/-- Witness for C9 at a concrete input: the first call pushes a task whose
options are the caller's object with the body nulled out to `undefined`,
and the normalization changed nothing but the body. -/
theorem C9_witness :
    (AsyncQueueVariant.fetchWithOptimization AsyncQueueVariant.init "http://h.com/x"
        nullBodyOpts).buf "h.com" =
      AsyncQueueVariant.init.buf "h.com" ++
        [⟨AsyncQueueVariant.init.nextTid, "http://h.com/x", normalizeBody nullBodyOpts⟩] ∧
    (normalizeBody nullBodyOpts).body = JsBody.undef ∧
    (normalizeBody nullBodyOpts).headers = nullBodyOpts.headers :=
  ⟨C9_body_normalization.2.2.2 AsyncQueueVariant.init "http://h.com/x" nullBodyOpts
      "h.com" (by decide) (by decide),
    (C9_body_normalization.2.1 nullBodyOpts (by decide)).1,
    (C9_body_normalization.2.1 nullBodyOpts (by decide)).2.1⟩

/-- C10: in the singleton variant (`stamp = true`), when a task reaches the
queue worker its `options.headers` is overwritten with a spread copy that
sets `x-callstart` to the processing-start timestamp, before the transport
is invoked: the running task and the recorded transport start both carry
the stamped copy, the stamped copy maps `x-callstart` to the timestamp
while every other header key is unchanged, and — whenever the caller did
not itself pass exactly that timestamp under `x-callstart` — the header
object sent differs from what the caller passed. -/
theorem C10_callstart_stamp :
    ∀ (S : AsyncQueueVariant.St) h ts t rest,
      S.buf h = t :: rest →
      S.runCnt h < MAX_CONCURRENT_REQUESTS →
      (AsyncQueueVariant.dispatch true S h ts).running =
        ({ t with opts := { t.opts with
          headers := objSet t.opts.headers "x-callstart" ts } }, h) :: S.running ∧
      (AsyncQueueVariant.dispatch true S h ts).begins =
        S.begins ++ [⟨t.tid, t.url, h, objSet t.opts.headers "x-callstart" ts⟩] ∧
      hGet (objSet t.opts.headers "x-callstart" ts) "x-callstart" = some ts ∧
      (∀ k, k ≠ "x-callstart" →
        hGet (objSet t.opts.headers "x-callstart" ts) k = hGet t.opts.headers k) ∧
      (hGet t.opts.headers "x-callstart" ≠ some ts →
        objSet t.opts.headers "x-callstart" ts ≠ t.opts.headers) := by
  intro S h ts t rest hbuf hfree
  rw [AsyncQueueVariant.dispatch_go true S h ts t rest hbuf hfree]
  refine ⟨rfl, rfl, hGet_objSet_same _ _ _, ?_, objSet_ne_of_lookup_ne _ _ _⟩
  intro k hk
  exact hGet_objSet_other _ _ _ k hk

/-- Witness for C10 at a concrete input: dispatching the one buffered task
records a transport start with the stamped header copy, the copy maps
`x-callstart` to the worker's timestamp, and it differs from the caller's
header object. -/
theorem C10_witness :
    (AsyncQueueVariant.dispatch true
        (AsyncQueueVariant.run true [AsyncQueueVariant.Ev.call "http://h.com/x" hdrOpts])
        "h.com" "T1").begins =
      (AsyncQueueVariant.run true
        [AsyncQueueVariant.Ev.call "http://h.com/x" hdrOpts]).begins ++
        [⟨0, "http://h.com/x", "h.com", objSet hdrOpts.headers "x-callstart" "T1"⟩] ∧
    hGet (objSet hdrOpts.headers "x-callstart" "T1") "x-callstart" = some "T1" ∧
    objSet hdrOpts.headers "x-callstart" "T1" ≠ hdrOpts.headers :=
  ⟨(C10_callstart_stamp
      (AsyncQueueVariant.run true [AsyncQueueVariant.Ev.call "http://h.com/x" hdrOpts])
      "h.com" "T1" ⟨0, "http://h.com/x", hdrOpts⟩ [] (by decide) (by decide)).2.1,
    (C10_callstart_stamp
      (AsyncQueueVariant.run true [AsyncQueueVariant.Ev.call "http://h.com/x" hdrOpts])
      "h.com" "T1" ⟨0, "http://h.com/x", hdrOpts⟩ [] (by decide) (by decide)).2.2.1,
    (C10_callstart_stamp
      (AsyncQueueVariant.run true [AsyncQueueVariant.Ev.call "http://h.com/x" hdrOpts])
      "h.com" "T1" ⟨0, "http://h.com/x", hdrOpts⟩ [] (by decide) (by decide)).2.2.2.2
      (by decide)⟩
